import Mathlib

/-!
Verification of the natural-language-to-safe-SQL pipeline of the
`learning_program` repository: the safety validator `is_safe_select_sql`
and limit enforcer `enforce_limit` of `llm_sql_openai.py`, the fallback
resolver `find_best_fallback` of `fallbacks.py`, and the chart-type
heuristic `detect_chart_type` of `viz.py`.

Strings are embedded as `List Char`.  Python string primitives
(`str.strip`, `str.split`, `str.upper`, `str.lower`, substring `in`,
`str.startswith`) are modelled character-by-character; character classes
follow Python's ASCII behaviour, which covers every string the program
manipulates.  The single regular expression used by the code,
`\bLIMIT\s+(\d+)\b` with `re.IGNORECASE`, is embedded by an explicit
matcher (`limitMatchHere`), a left-to-right scanner for `re.finditer` /
`re.search` (`limitScan`) and a global substituter for `re.sub`
(`limitSub`).
-/

/-- ASCII whitespace as recognised by Python's `str.strip`/`str.split`
and by the regex class `\s`: space, tab, newline, carriage return,
vertical tab, form feed. -/
def isSpaceChar (c : Char) : Bool :=
  c.toNat = 32 || c.toNat = 9 || c.toNat = 10 || c.toNat = 13 ||
    c.toNat = 11 || c.toNat = 12

/-- ASCII decimal digit, the regex class `\d`. -/
def isDigitChar (c : Char) : Bool :=
  48 ≤ c.toNat && c.toNat ≤ 57

/-- Regex word character `\w`: letters, digits, underscore. -/
def isWordChar (c : Char) : Bool :=
  (65 ≤ c.toNat && c.toNat ≤ 90) || (97 ≤ c.toNat && c.toNat ≤ 122) ||
    isDigitChar c || c.toNat = 95

/-- Python `str.upper` on one character (ASCII case mapping). -/
def toUpperChar (c : Char) : Char :=
  if 97 ≤ c.toNat && c.toNat ≤ 122 then Char.ofNat (c.toNat - 32) else c

/-- Python `str.lower` on one character (ASCII case mapping). -/
def toLowerChar (c : Char) : Char :=
  if 65 ≤ c.toNat && c.toNat ≤ 90 then Char.ofNat (c.toNat + 32) else c

/-- Python `str.strip()`: remove leading and trailing whitespace. -/
def pyStrip (s : List Char) : List Char :=
  ((s.dropWhile isSpaceChar).reverse.dropWhile isSpaceChar).reverse

/-- Helper for `pySplit`: accumulates the current token (reversed). -/
def pySplitAux : List Char → List Char → List (List Char)
  | [], acc => if acc.isEmpty then [] else [acc.reverse]
  | c :: rest, acc =>
      if isSpaceChar c then
        if acc.isEmpty then pySplitAux rest [] else acc.reverse :: pySplitAux rest []
      else pySplitAux rest (c :: acc)

/-- Python `str.split()` with no arguments: split on whitespace runs,
discarding empty pieces. -/
def pySplit (s : List Char) : List (List Char) :=
  pySplitAux s []

/-- Python `' '.join(...)`. -/
def joinSpace : List (List Char) → List Char
  | [] => []
  | [t] => t
  | t :: ts => t ++ ' ' :: joinSpace ts

/-- Python `str.startswith`: is `p` a prefix of `s`? -/
def startsWithCL : List Char → List Char → Bool
  | [], _ => true
  | _ :: _, [] => false
  | a :: as, b :: bs => a = b && startsWithCL as bs

/-- Python substring containment `p in s`. -/
def containsSub (p : List Char) : List Char → Bool
  | [] => startsWithCL p []
  | c :: rest => startsWithCL p (c :: rest) || containsSub p rest

/-- The normalisation performed by `is_safe_select_sql`:
`' '.join(sql.strip().split()).upper()`. -/
def normalizeSQL (sql : List Char) : List Char :=
  (joinSpace (pySplit (pyStrip sql))).map toUpperChar

/-- The denylist of `is_safe_select_sql` (`dangerous_keywords`). -/
def dangerousKeywords : List (List Char) :=
  ["INSERT".data, "UPDATE".data, "DELETE".data, "DROP".data, "ALTER".data,
   "CREATE".data, "REPLACE".data, "TRUNCATE".data, "ATTACH".data,
   "COPY".data, "PRAGMA".data]

/-- `is_safe_select_sql` from `llm_sql_openai.py`: reject when the
stripped text is empty, when the whitespace-normalised upper-cased text
does not start with `SELECT`, or when `' KEYWORD '` occurs inside
`' ' + normalized + ' '` for some denylisted keyword. -/
def is_safe_select_sql (sql : List Char) : Bool :=
  if pyStrip sql = [] then false
  else if !startsWithCL "SELECT".data (normalizeSQL sql) then false
  else
    dangerousKeywords.all fun kw =>
      !containsSub (' ' :: (kw ++ [' '])) (' ' :: (normalizeSQL sql ++ [' ']))

example : is_safe_select_sql "SELECT * FROM sales".data = true := by decide
example : is_safe_select_sql "drop table sales".data = false := by decide
example : is_safe_select_sql "  ".data = false := by decide
example : is_safe_select_sql "SELECT * FROM sales; DROP TABLE sales".data = false := by
  decide
example : is_safe_select_sql "SELECT dropped_flag FROM sales".data = true := by decide

/-! ## Claim C1: the safety predicate -/

/-- Regex-style word boundary relative to the preceding character:
satisfied at the start of the string or after a non-word character. -/
def boundaryOkB : Option Char → Bool
  | none => true
  | some c => !isWordChar c

/-- Does `kw` occur in the scanned suffix as a word-boundary-delimited
standalone token?  `prev` is the character preceding the suffix. -/
def hasWBTokenFrom (kw : List Char) : Option Char → List Char → Bool
  | prev, [] => boundaryOkB prev && startsWithCL kw []
  | prev, c :: rest =>
      (boundaryOkB prev && startsWithCL kw (c :: rest) &&
        boundaryOkB (((c :: rest).drop kw.length).head?)) ||
      hasWBTokenFrom kw (some c) rest

/-- Modelled from the spec: claim C1's reading of `is_safe`, under which
the normalized text must start with the *token* `SELECT` and a
denylisted keyword is disqualifying whenever it occurs as a
*word-boundary-delimited* standalone token (not merely space-delimited). -/
def c1SpecSafe (sql : List Char) : Bool :=
  decide (pyStrip sql ≠ []) &&
  decide ((pySplit (normalizeSQL sql)).head? = some "SELECT".data) &&
  (dangerousKeywords.all fun kw => !hasWBTokenFrom kw none (normalizeSQL sql))

theorem startsWithCL_iff (p s : List Char) :
    startsWithCL p s = true ↔ ∃ t, s = p ++ t := by
  induction p generalizing s with
  | nil => simp [startsWithCL]
  | cons a as ih =>
    cases s with
    | nil =>
        simp [startsWithCL]
    | cons b bs =>
        simp only [startsWithCL, Bool.and_eq_true, decide_eq_true_eq, ih,
          List.cons_append]
        constructor
        · rintro ⟨rfl, t, rfl⟩; exact ⟨t, rfl⟩
        · rintro ⟨t, h⟩
          injection h with h1 h2
          exact ⟨h1.symm, t, h2⟩

theorem containsSub_iff (p s : List Char) :
    containsSub p s = true ↔ ∃ a b, s = a ++ p ++ b := by
  induction s with
  | nil =>
      simp only [containsSub, startsWithCL_iff]
      constructor
      · rintro ⟨t, ht⟩
        exact ⟨[], t, by simpa using ht⟩
      · rintro ⟨a, b, hab⟩
        have h := hab.symm
        rw [List.append_assoc, List.append_eq_nil] at h
        rw [List.append_eq_nil] at *
        exact ⟨b, by simp [h.1, h.2]⟩
  | cons c rest ih =>
      simp only [containsSub, Bool.or_eq_true, startsWithCL_iff, ih]
      constructor
      · rintro (⟨t, ht⟩ | ⟨a, b, hab⟩)
        · exact ⟨[], t, by simpa using ht⟩
        · exact ⟨c :: a, b, by simp [hab]⟩
      · rintro ⟨a, b, hab⟩
        cases a with
        | nil => exact Or.inl ⟨b, by simpa using hab⟩
        | cons a0 as =>
            injection hab with h1 h2
            exact Or.inr ⟨as, b, h2⟩

/-- C1, counterexamples to the claim as stated.  `SELECT DROP(X)` is
accepted by the code (the denylist check demands spaces on both sides,
and `(` is not a space) yet `DROP` occurs there as a word-boundary
token; `SELECTED 1` is accepted by the code (`startswith` is a plain
string-prefix test) yet its first token is not `SELECT`. -/
theorem c1_counterexample :
    is_safe_select_sql "SELECT DROP(X)".data = true ∧
    c1SpecSafe "SELECT DROP(X)".data = false ∧
    is_safe_select_sql "SELECTED 1".data = true ∧
    c1SpecSafe "SELECTED 1".data = false := by decide

/-- C1 (amended): `is_safe` returns true iff the trimmed string is
non-empty, the whitespace-normalized upper-cased text starts with the
character sequence `SELECT` (a plain prefix, not a token test), and no
denylisted keyword occurs as a space-delimited token of the normalized
text, i.e. `' KEYWORD '` is not a substring of the normalized text
padded with one space on each side. -/
theorem c1_is_safe_characterization (sql : List Char) :
    is_safe_select_sql sql = true ↔
      pyStrip sql ≠ [] ∧
      (∃ t, normalizeSQL sql = "SELECT".data ++ t) ∧
      ∀ kw ∈ dangerousKeywords,
        ¬ ∃ a b, ' ' :: (normalizeSQL sql ++ [' ']) =
            a ++ (' ' :: (kw ++ [' '])) ++ b := by
  rw [is_safe_select_sql]
  split_ifs with h1 h2
  · simp [h1]
  · rw [Bool.not_eq_true'] at h2
    simp only [Bool.false_eq_true, false_iff, not_and]
    intro _ hsel
    rcases hsel with ⟨t, ht⟩
    have : startsWithCL "SELECT".data (normalizeSQL sql) = true :=
      (startsWithCL_iff _ _).mpr ⟨t, ht⟩
    simp [this] at h2
  · simp only [Bool.not_eq_true', Bool.not_eq_false] at h2
    simp only [List.all_eq_true, Bool.not_eq_true']
    constructor
    · intro hall
      refine ⟨h1, (startsWithCL_iff _ _).mp h2, ?_⟩
      intro kw hkw hex
      have := hall kw hkw
      rw [← Bool.not_eq_true, containsSub_iff] at this
      exact this hex
    · rintro ⟨-, -, hno⟩ kw hkw
      rw [← Bool.not_eq_true, containsSub_iff]
      exact hno kw hkw

/-! ## The limit enforcer `enforce_limit` and its regex -/

/-- Character for the decimal digit `n < 10`. -/
def digitChar (n : Nat) : Char := Char.ofNat (48 + n)

/-- Fuelled helper computing decimal digits most-significant first. -/
def natToDigitsAux : Nat → Nat → List Char → List Char
  | 0, _, acc => acc
  | fuel + 1, n, acc =>
      if n < 10 then digitChar n :: acc
      else natToDigitsAux fuel (n / 10) (digitChar (n % 10) :: acc)

/-- Decimal digit string of a natural number, as Python `str` prints it. -/
def natToDigits (n : Nat) : List Char := natToDigitsAux (n + 1) n []

/-- Python `str(m)` / f-string interpolation of an int. -/
def intToChars (m : Int) : List Char :=
  if m < 0 then '-' :: natToDigits (-m).toNat else natToDigits m.toNat

/-- Python `int(ds)` on a string of decimal digits. -/
def digitsVal (ds : List Char) : Nat :=
  ds.foldl (fun n c => 10 * n + (c.toNat - 48)) 0

/-- The part of `\bLIMIT\s+(\d+)\b` after the literal: a nonempty
whitespace run, a nonempty digit run, then a word boundary.  Returns
the captured value, the suffix after the match, and the last matched
character. -/
def limitTail (t : List Char) : Option (Nat × List Char × Char) :=
  if (t.takeWhile isSpaceChar).isEmpty then none
  else if ((t.dropWhile isSpaceChar).takeWhile isDigitChar).isEmpty then none
  else if boundaryOkB ((t.dropWhile isSpaceChar).dropWhile isDigitChar).head? then
    some (digitsVal ((t.dropWhile isSpaceChar).takeWhile isDigitChar),
      (t.dropWhile isSpaceChar).dropWhile isDigitChar,
      ((t.dropWhile isSpaceChar).takeWhile isDigitChar).getLastD '0')
  else none

/-- Match `\bLIMIT\s+(\d+)\b` (with `re.IGNORECASE`) at the start of
`s`; `prev` is the character preceding `s` in the scanned string. -/
def limitMatchHere (prev : Option Char) (s : List Char) :
    Option (Nat × List Char × Char) :=
  if boundaryOkB prev ∧ (s.take 5).map toUpperChar = "LIMIT".data then
    limitTail (s.drop 5)
  else none

/-- Fuelled scanner collecting the captured values of all
non-overlapping matches, left to right. -/
def limitScanF : Nat → Option Char → List Char → List Nat
  | 0, _, _ => []
  | fuel + 1, prev, s =>
      match s with
      | [] => []
      | c :: rest =>
          match limitMatchHere prev (c :: rest) with
          | some (v, after, lastC) => v :: limitScanF fuel (some lastC) after
          | none => limitScanF fuel (some c) rest

/-- Captured values of all matches of `\bLIMIT\s+(\d+)\b` in `s`
(ignoring case), scanning left to right without overlap as
`re.finditer`/`re.search`/`re.sub` do; `prev` is the character
preceding `s`. -/
def limitScan (prev : Option Char) (s : List Char) : List Nat :=
  limitScanF (s.length + 1) prev s

/-- Fuelled global substituter replacing each match with
`'LIMIT ' ++ d`. -/
def limitSubF (d : List Char) : Nat → Option Char → List Char → List Char
  | 0, _, s => s
  | fuel + 1, prev, s =>
      match s with
      | [] => []
      | c :: rest =>
          match limitMatchHere prev (c :: rest) with
          | some (_, after, lastC) =>
              ("LIMIT ".data ++ d) ++ limitSubF d fuel (some lastC) after
          | none => c :: limitSubF d fuel (some c) rest

/-- `re.sub(limit_pattern, 'LIMIT ' + d, s, flags=re.IGNORECASE)`. -/
def limitSub (d : List Char) (prev : Option Char) (s : List Char) : List Char :=
  limitSubF d (s.length + 1) prev s

/-- The preprocessing of `enforce_limit`: strip, drop one trailing
semicolon if present, strip again. -/
def enfBody (sql : List Char) : List Char :=
  if (pyStrip sql).getLast? = some ';' then pyStrip (pyStrip sql).dropLast
  else pyStrip sql

/-- `enforce_limit` from `llm_sql_openai.py`: after preprocessing, if
`re.search` finds a `LIMIT <integer>` clause whose value exceeds
`maxLimit`, every match is rewritten to `LIMIT <maxLimit>` by `re.sub`;
if the found value is within bound nothing changes; if there is no
match, ` LIMIT <maxLimit>` is appended.  A semicolon is always
re-appended. -/
def enforce_limit (sql : List Char) (maxLimit : Int) : List Char :=
  (match (limitScan none (enfBody sql)).head? with
   | some v =>
       if (v : Int) > maxLimit then
         limitSub (intToChars maxLimit) none (enfBody sql)
       else enfBody sql
   | none => enfBody sql ++ (" LIMIT ".data ++ intToChars maxLimit)) ++ [';']

example : enforce_limit "SELECT * FROM sales".data 100 =
    "SELECT * FROM sales LIMIT 100;".data := by decide
example : enforce_limit "SELECT * FROM sales LIMIT 5000".data 1000 =
    "SELECT * FROM sales LIMIT 1000;".data := by decide
example : enforce_limit "SELECT * FROM sales LIMIT 50;".data 1000 =
    "SELECT * FROM sales LIMIT 50;".data := by decide
example : enforce_limit "SELECT a FROM t limit   007".data 3 =
    "SELECT a FROM t LIMIT 3;".data := by decide

theorem limitMatchHere_length {prev : Option Char} {s after : List Char}
    {v : Nat} {lc : Char} (h : limitMatchHere prev s = some (v, after, lc)) :
    after.length + 5 ≤ s.length := by
  unfold limitMatchHere at h
  split at h
  · rename_i hc
    have h5 : 5 ≤ s.length := by
      have hl : (s.take 5).length = 5 := by
        have := congrArg List.length (hc.2)
        simpa using this
      simp [List.length_take] at hl
      omega
    unfold limitTail at h
    split at h
    · exact absurd h (by simp)
    · split at h
      · exact absurd h (by simp)
      · split at h
        · have hafter : after = ((s.drop 5).dropWhile isSpaceChar).dropWhile isDigitChar := by
            injection h with h'
            injection h' with hv hrest
            injection hrest with ha hl
            exact ha.symm
          have hle1 : (((s.drop 5).dropWhile isSpaceChar).dropWhile isDigitChar).length ≤
              ((s.drop 5).dropWhile isSpaceChar).length :=
            (List.dropWhile_suffix _).length_le
          have hle2 : ((s.drop 5).dropWhile isSpaceChar).length ≤ (s.drop 5).length :=
            (List.dropWhile_suffix _).length_le
          have hd : (s.drop 5).length = s.length - 5 := List.length_drop 5 s
          rw [hafter]
          omega
        · exact absurd h (by simp)
  · exact absurd h (by simp)

theorem limitScanF_fuel (f1 : Nat) : ∀ (f2 : Nat) (prev : Option Char) (s : List Char),
    s.length < f1 → s.length < f2 → limitScanF f1 prev s = limitScanF f2 prev s := by
  induction f1 with
  | zero => intro f2 prev s h1 _; omega
  | succ f1 ih =>
      intro f2 prev s h1 h2
      cases f2 with
      | zero => omega
      | succ f2 =>
          cases s with
          | nil => simp [limitScanF]
          | cons c rest =>
              simp only [limitScanF]
              cases hm : limitMatchHere prev (c :: rest) with
              | none =>
                  exact ih f2 (some c) rest (by simp at h1 ⊢; omega)
                    (by simp at h2 ⊢; omega)
              | some r =>
                  obtain ⟨v, after, lc⟩ := r
                  have hml := limitMatchHere_length hm
                  simp only [List.length_cons] at h1 h2 hml
                  have ha1 : after.length < f1 := by omega
                  have ha2 : after.length < f2 := by omega
                  show v :: limitScanF f1 (some lc) after = v :: limitScanF f2 (some lc) after
                  rw [ih f2 (some lc) after ha1 ha2]

theorem limitSubF_fuel (d : List Char) (f1 : Nat) :
    ∀ (f2 : Nat) (prev : Option Char) (s : List Char),
    s.length < f1 → s.length < f2 → limitSubF d f1 prev s = limitSubF d f2 prev s := by
  induction f1 with
  | zero => intro f2 prev s h1 _; omega
  | succ f1 ih =>
      intro f2 prev s h1 h2
      cases f2 with
      | zero => omega
      | succ f2 =>
          cases s with
          | nil => simp [limitSubF]
          | cons c rest =>
              simp only [limitSubF]
              cases hm : limitMatchHere prev (c :: rest) with
              | none =>
                  rw [ih f2 (some c) rest (by simp at h1 ⊢; omega)
                    (by simp at h2 ⊢; omega)]
              | some r =>
                  obtain ⟨v, after, lc⟩ := r
                  have hml := limitMatchHere_length hm
                  simp only [List.length_cons] at h1 h2 hml
                  have ha1 : after.length < f1 := by omega
                  have ha2 : after.length < f2 := by omega
                  show "LIMIT ".data ++ d ++ limitSubF d f1 (some lc) after =
                    "LIMIT ".data ++ d ++ limitSubF d f2 (some lc) after
                  rw [ih f2 (some lc) after ha1 ha2]

theorem limitScan_nil (prev : Option Char) : limitScan prev [] = [] := rfl

theorem limitScan_cons_none {prev : Option Char} {c : Char} {rest : List Char}
    (h : limitMatchHere prev (c :: rest) = none) :
    limitScan prev (c :: rest) = limitScan (some c) rest := by
  simp only [limitScan, List.length_cons, limitScanF, h]

theorem limitScan_cons_some {prev : Option Char} {c : Char} {rest after : List Char}
    {v : Nat} {lc : Char} (h : limitMatchHere prev (c :: rest) = some (v, after, lc)) :
    limitScan prev (c :: rest) = v :: limitScan (some lc) after := by
  have hlen := limitMatchHere_length h
  simp only [List.length_cons] at hlen
  have ha1 : after.length < rest.length + 1 := by omega
  have ha2 : after.length < after.length + 1 := by omega
  show limitScanF (rest.length + 1 + 1) prev (c :: rest) = v :: limitScan (some lc) after
  rw [limitScanF, h]
  show v :: limitScanF (rest.length + 1) (some lc) after = v :: limitScan (some lc) after
  rw [limitScanF_fuel _ _ _ _ ha1 ha2]
  rfl

theorem limitSub_nil (d : List Char) (prev : Option Char) : limitSub d prev [] = [] := rfl

theorem limitSub_cons_none {d : List Char} {prev : Option Char} {c : Char}
    {rest : List Char} (h : limitMatchHere prev (c :: rest) = none) :
    limitSub d prev (c :: rest) = c :: limitSub d (some c) rest := by
  simp only [limitSub, List.length_cons, limitSubF, h]

theorem limitSub_cons_some {d : List Char} {prev : Option Char} {c : Char}
    {rest after : List Char} {v : Nat} {lc : Char}
    (h : limitMatchHere prev (c :: rest) = some (v, after, lc)) :
    limitSub d prev (c :: rest) = ("LIMIT ".data ++ d) ++ limitSub d (some lc) after := by
  have hlen := limitMatchHere_length h
  simp only [List.length_cons] at hlen
  have ha1 : after.length < rest.length + 1 := by omega
  have ha2 : after.length < after.length + 1 := by omega
  show limitSubF d (rest.length + 1 + 1) prev (c :: rest) =
    "LIMIT ".data ++ d ++ limitSub d (some lc) after
  rw [limitSubF, h]
  show "LIMIT ".data ++ d ++ limitSubF d (rest.length + 1) (some lc) after =
    "LIMIT ".data ++ d ++ limitSub d (some lc) after
  rw [limitSubF_fuel _ _ _ _ _ ha1 ha2]
  rfl

/-- C2, counterexample to the claim as stated.  The input contains an
over-bound clause `LIMIT 2000` and a within-bound clause `LIMIT 5`;
the claim says only the offending clause is rewritten and a clause
within bound is left untouched, but `re.sub` (used without a count)
rewrites every clause, including `LIMIT 5`. -/
theorem c2_counterexample :
    limitScan none (enfBody "SELECT 1 LIMIT 2000 LIMIT 5".data) = [2000, 5] ∧
    enforce_limit "SELECT 1 LIMIT 2000 LIMIT 5".data 1000 =
      "SELECT 1 LIMIT 1000 LIMIT 1000;".data := by decide

/-- C3, counterexample to the claim as stated.  On this input the output
of `enforce_limit` contains two `LIMIT` clauses, one of which exceeds
the bound, and it ends with a doubled semicolon; moreover with a
negative bound the output contains no `LIMIT` clause at all. -/
theorem c3_counterexample :
    enforce_limit "SELECT 1 LIMIT 5 LIMIT 2000;;".data 1000 =
      "SELECT 1 LIMIT 5 LIMIT 2000;;".data ∧
    limitScan none (enforce_limit "SELECT 1 LIMIT 5 LIMIT 2000;;".data 1000) =
      [5, 2000] ∧
    (enforce_limit "SELECT 1 LIMIT 5 LIMIT 2000;;".data 1000).getLast? = some ';' ∧
    (enforce_limit "SELECT 1 LIMIT 5 LIMIT 2000;;".data 1000).dropLast.getLast? =
      some ';' ∧
    limitScan none (enforce_limit "SELECT 1".data (-1)) = [] := by decide

/-- C9, counterexample to the claim as stated: `enforce_limit` is not
idempotent on an input whose preprocessed body is empty (the appended
` LIMIT 1000` keeps its leading space after the first pass but is
stripped on the second), nor for a negative bound (the appended
`LIMIT -1` never parses as a `LIMIT <integer>` clause, so a second
pass appends again). -/
theorem c9_counterexample :
    enforce_limit (enforce_limit ";".data 1000) 1000 ≠ enforce_limit ";".data 1000 ∧
    enforce_limit (enforce_limit "SELECT 1".data (-1)) (-1) ≠
      enforce_limit "SELECT 1".data (-1) := by decide

/-! ## Character-class and digit-string toolkit -/

theorem char_toNat_ofNat_small (n : Nat) (h1 : n < 1000) : (Char.ofNat n).toNat = n := by
  unfold Char.ofNat
  split
  · simp [Char.ofNatAux, Char.toNat, UInt32.toNat]
  · rename_i h
    exfalso
    apply h
    constructor
    omega

theorem toUpperChar_toNat (c : Char) :
    (toUpperChar c).toNat =
      if 97 ≤ c.toNat ∧ c.toNat ≤ 122 then c.toNat - 32 else c.toNat := by
  unfold toUpperChar
  split
  · rename_i h
    rw [Bool.and_eq_true, decide_eq_true_eq, decide_eq_true_eq] at h
    rw [char_toNat_ofNat_small _ (by omega), if_pos h]
  · rename_i h
    rw [Bool.and_eq_true] at h
    rw [if_neg]
    intro hc
    exact h ⟨by simpa using hc.1, by simpa using hc.2⟩

theorem isSpaceChar_toUpperChar (c : Char) :
    isSpaceChar (toUpperChar c) = isSpaceChar c := by
  rw [Bool.eq_iff_iff]
  simp only [isSpaceChar, Bool.or_eq_true, decide_eq_true_eq, toUpperChar_toNat]
  split_ifs with h
  · omega
  · exact Iff.rfl

theorem isDigitChar_toUpperChar (c : Char) :
    isDigitChar (toUpperChar c) = isDigitChar c := by
  rw [Bool.eq_iff_iff]
  simp only [isDigitChar, Bool.and_eq_true, decide_eq_true_eq, toUpperChar_toNat]
  split_ifs with h
  · omega
  · exact Iff.rfl

theorem isWordChar_toUpperChar (c : Char) :
    isWordChar (toUpperChar c) = isWordChar c := by
  rw [Bool.eq_iff_iff]
  simp only [isWordChar, isDigitChar, Bool.or_eq_true, Bool.and_eq_true,
    decide_eq_true_eq, toUpperChar_toNat]
  split_ifs with h
  · omega
  · exact Iff.rfl

theorem toNat_of_upper_eq {c u : Char} (h : toUpperChar c = u) :
    c.toNat = u.toNat ∨ c.toNat = u.toNat + 32 := by
  have := congrArg Char.toNat h
  rw [toUpperChar_toNat] at this
  split_ifs at this <;> omega

theorem digit_not_space {c : Char} (h : isDigitChar c = true) : isSpaceChar c = false := by
  simp only [isDigitChar, Bool.and_eq_true, decide_eq_true_eq] at h
  simp only [isSpaceChar, Bool.or_eq_false_iff, decide_eq_false_iff_not]
  omega

theorem digit_word {c : Char} (h : isDigitChar c = true) : isWordChar c = true := by
  simp only [isWordChar, Bool.or_eq_true]
  exact Or.inl (Or.inr h)

theorem not_word_not_digit {c : Char} (h : isWordChar c = false) : isDigitChar c = false := by
  simp only [isWordChar, Bool.or_eq_false_iff] at h
  exact h.1.2

theorem space_not_word {c : Char} (h : isSpaceChar c = true) : isWordChar c = false := by
  simp only [isSpaceChar, Bool.or_eq_true, decide_eq_true_eq] at h
  rw [← Bool.not_eq_true]
  simp only [isWordChar, isDigitChar, Bool.or_eq_true, Bool.and_eq_true,
    decide_eq_true_eq]
  omega

theorem natToDigitsAux_fuel (f1 : Nat) : ∀ (f2 n : Nat) (acc : List Char),
    n < f1 → n < f2 → natToDigitsAux f1 n acc = natToDigitsAux f2 n acc := by
  induction f1 with
  | zero => intro f2 n acc h1 _; omega
  | succ f1 ih =>
      intro f2 n acc h1 h2
      cases f2 with
      | zero => omega
      | succ f2 =>
          simp only [natToDigitsAux]
          split
      
          · rfl
          · rename_i h
            have hn : 0 < n := by omega
            have : n / 10 < n := Nat.div_lt_self hn (by omega)
            exact ih f2 (n / 10) _ (by omega) (by omega)

theorem natToDigitsAux_acc (f : Nat) : ∀ (n : Nat) (acc : List Char), n < f →
    natToDigitsAux f n acc = natToDigitsAux f n [] ++ acc := by
  induction f with
  | zero => intro n acc h; omega
  | succ f ih =>
      intro n acc h
      simp only [natToDigitsAux]
      split
      · rfl
      · rename_i hn
        have h10 : 0 < n := by omega
        have hd : n / 10 < n := Nat.div_lt_self h10 (by omega)
        rw [ih (n / 10) _ (by omega), ih (n / 10) [digitChar (n % 10)] (by omega),
          List.append_assoc]
        rfl

theorem natToDigits_step (n : Nat) (h : ¬n < 10) :
    natToDigits n = natToDigits (n / 10) ++ [digitChar (n % 10)] := by
  have h10 : 0 < n := by omega
  have hd : n / 10 < n := Nat.div_lt_self h10 (by omega)
  show natToDigitsAux (n + 1) n [] = _
  rw [natToDigitsAux, if_neg h, natToDigitsAux_acc n (n / 10) _ (by omega),
    natToDigitsAux_fuel n (n / 10 + 1) (n / 10) [] (by omega) (by omega)]
  rfl

theorem natToDigits_small (n : Nat) (h : n < 10) : natToDigits n = [digitChar n] := by
  show natToDigitsAux (n + 1) n [] = _
  rw [natToDigitsAux, if_pos h]

theorem digitChar_isDigit (n : Nat) (h : n < 10) : isDigitChar (digitChar n) = true := by
  simp only [isDigitChar, digitChar, Bool.and_eq_true, decide_eq_true_eq]
  rw [char_toNat_ofNat_small _ (by omega)]
  omega

theorem natToDigits_digits (n : Nat) :
    (natToDigits n).all isDigitChar = true ∧ natToDigits n ≠ [] := by
  induction n using Nat.strong_induction_on with
  | _ n ih =>
      by_cases h : n < 10
      · rw [natToDigits_small n h]
        simp [digitChar_isDigit n h]
      · rw [natToDigits_step n h]
        have h10 : 0 < n := by omega
        have hd : n / 10 < n := Nat.div_lt_self h10 (by omega)
        obtain ⟨h1, h2⟩ := ih (n / 10) hd
        refine ⟨?_, by simp⟩
        rw [List.all_append, h1]
        simp [digitChar_isDigit (n % 10) (Nat.mod_lt n (by omega))]

theorem digitsVal_append_singleton (xs : List Char) (c : Char) :
    digitsVal (xs ++ [c]) = 10 * digitsVal xs + (c.toNat - 48) := by
  simp [digitsVal, List.foldl_append]

theorem digitsVal_natToDigits (n : Nat) : digitsVal (natToDigits n) = n := by
  induction n using Nat.strong_induction_on with
  | _ n ih =>
      by_cases h : n < 10
      · rw [natToDigits_small n h]
        simp only [digitsVal, List.foldl_cons, List.foldl_nil, digitChar]
        rw [char_toNat_ofNat_small _ (by omega)]
        omega
      · rw [natToDigits_step n h, digitsVal_append_singleton]
        have h10 : 0 < n := by omega
        have hd : n / 10 < n := Nat.div_lt_self h10 (by omega)
        rw [ih (n / 10) hd]
        simp only [digitChar]
        rw [char_toNat_ofNat_small _ (by omega)]
        have := Nat.div_add_mod n 10
        omega

theorem intToChars_nonneg {m : Int} (h : 0 ≤ m) : intToChars m = natToDigits m.toNat := by
  rw [intToChars, if_neg (by omega)]

theorem digitsVal_intToChars {m : Int} (h : 0 ≤ m) :
    digitsVal (intToChars m) = m.toNat := by
  rw [intToChars_nonneg h, digitsVal_natToDigits]

theorem intToChars_digits {m : Int} (h : 0 ≤ m) :
    (intToChars m).all isDigitChar = true ∧ intToChars m ≠ [] := by
  rw [intToChars_nonneg h]
  exact natToDigits_digits m.toNat

/-! ## takeWhile/dropWhile helpers -/

theorem all_takeWhile (p : Char → Bool) (l : List Char) :
    (l.takeWhile p).all p = true := by
  induction l with
  | nil => rfl
  | cons c l ih =>
      rw [List.takeWhile_cons]
      split
      · rename_i h; simp [h, ih]
      · rfl

theorem takeWhile_append_all {p : Char → Bool} {l1 : List Char}
    (h : l1.all p = true) (l2 : List Char) :
    (l1 ++ l2).takeWhile p = l1 ++ l2.takeWhile p := by
  induction l1 with
  | nil => rfl
  | cons c l ih =>
      simp only [List.all_cons, Bool.and_eq_true] at h
      simp [List.takeWhile_cons, h.1, ih h.2]

theorem dropWhile_append_all {p : Char → Bool} {l1 : List Char}
    (h : l1.all p = true) (l2 : List Char) :
    (l1 ++ l2).dropWhile p = l2.dropWhile p := by
  induction l1 with
  | nil => rfl
  | cons c l ih =>
      simp only [List.all_cons, Bool.and_eq_true] at h
      simp [List.dropWhile_cons, h.1, ih h.2]

theorem takeWhile_eq_self_of_all {p : Char → Bool} {l : List Char}
    (h : l.all p = true) : l.takeWhile p = l := by
  have := takeWhile_append_all h ([] : List Char)
  simpa using this

theorem dropWhile_eq_nil_of_all {p : Char → Bool} {l : List Char}
    (h : l.all p = true) : l.dropWhile p = [] := by
  have := dropWhile_append_all h ([] : List Char)
  simpa using this

theorem takeWhile_append_stop {p : Char → Bool} {l1 : List Char}
    (h : l1.dropWhile p ≠ []) (l2 : List Char) :
    (l1 ++ l2).takeWhile p = l1.takeWhile p := by
  induction l1 with
  | nil => exact absurd rfl h
  | cons c l ih =>
      by_cases hc : p c
      · rw [List.dropWhile_cons_of_pos hc] at h
        simp [List.takeWhile_cons, hc, ih h]
      · rw [List.cons_append, List.takeWhile_cons_of_neg (by simpa using hc),
          List.takeWhile_cons_of_neg (by simpa using hc)]

theorem dropWhile_append_stop {p : Char → Bool} {l1 : List Char}
    (h : l1.dropWhile p ≠ []) (l2 : List Char) :
    (l1 ++ l2).dropWhile p = l1.dropWhile p ++ l2 := by
  induction l1 with
  | nil => exact absurd rfl h
  | cons c l ih =>
      by_cases hc : p c
      · rw [List.dropWhile_cons_of_pos hc] at h
        simp [List.dropWhile_cons, hc, ih h]
      · rw [List.cons_append, List.dropWhile_cons_of_neg (by simpa using hc),
          List.dropWhile_cons_of_neg (by simpa using hc), List.cons_append]

theorem head_dropWhile_false {p : Char → Bool} {l : List Char} {c : Char}
    (h : (l.dropWhile p).head? = some c) : p c = false := by
  induction l with
  | nil => simp [List.dropWhile] at h
  | cons a l ih =>
      rw [List.dropWhile_cons] at h
      split at h
      · exact ih h
      · rename_i ha
        simp only [List.head?_cons, Option.some.injEq] at h
        rw [← h]
        simpa using ha

theorem all_dropWhile_nil {p : Char → Bool} {l : List Char}
    (h : l.dropWhile p = []) : l.all p = true := by
  induction l with
  | nil => rfl
  | cons a l ih =>
      rw [List.dropWhile_cons] at h
      split at h
      · rename_i ha; simp [ha, ih h]
      · exact absurd h (by simp)

theorem all_getLastD {p : Char → Bool} {l : List Char}
    (h : l ≠ []) (ha : l.all p = true) : p (l.getLastD '0') = true := by
  induction l with
  | nil => exact absurd rfl h
  | cons a l ih =>
      simp only [List.all_cons, Bool.and_eq_true] at ha
      cases l with
      | nil => simpa using ha.1
      | cons b l => simpa using ih (by simp) ha.2

theorem takeWhile_append_single {p : Char → Bool} {x : Char} (hx : p x = false)
    (u : List Char) :
    (u ++ [x]).takeWhile p = u.takeWhile p ∧
    (u ++ [x]).dropWhile p = u.dropWhile p ++ [x] := by
  induction u with
  | nil => simp [List.takeWhile_cons, List.dropWhile_cons, hx]
  | cons c u ih =>
      by_cases hc : p c
      · simp only [List.cons_append, List.takeWhile_cons_of_pos hc,
          List.dropWhile_cons_of_pos hc]
        exact ⟨by rw [ih.1], by rw [ih.2]⟩
      · simp [List.cons_append, List.takeWhile_cons_of_neg (by simpa using hc),
          List.dropWhile_cons_of_neg (by simpa using hc)]

/-! ## Structural lemmas about the `\bLIMIT\s+(\d+)\b` matcher -/

theorem limitMatchHere_congr {p1 p2 : Option Char}
    (h : boundaryOkB p1 = boundaryOkB p2) (s : List Char) :
    limitMatchHere p1 s = limitMatchHere p2 s := by
  unfold limitMatchHere
  rw [h]

theorem limitMatchHere_not_boundary {prev : Option Char} (h : boundaryOkB prev = false)
    (s : List Char) : limitMatchHere prev s = none := by
  unfold limitMatchHere
  rw [if_neg]
  rintro ⟨hb, -⟩
  rw [h] at hb
  exact absurd hb (by simp)

theorem limitMatchHere_head_ne {c : Char} (h : toUpperChar c ≠ 'L')
    (prev : Option Char) (rest : List Char) :
    limitMatchHere prev (c :: rest) = none := by
  unfold limitMatchHere
  rw [if_neg]
  rintro ⟨-, hlit⟩
  rw [List.take_succ_cons, List.map_cons] at hlit
  injection hlit with h1 _
  exact h h1

theorem upper_ne_L_of_space {c : Char} (h : isSpaceChar c = true) :
    toUpperChar c ≠ 'L' := by
  intro he
  rcases toNat_of_upper_eq he with hn | hn <;>
    · simp only [isSpaceChar, Bool.or_eq_true, decide_eq_true_eq] at h
      have : ('L' : Char).toNat = 76 := by decide
      omega

theorem upper_ne_L_of_digit {c : Char} (h : isDigitChar c = true) :
    toUpperChar c ≠ 'L' := by
  intro he
  rcases toNat_of_upper_eq he with hn | hn <;>
    · simp only [isDigitChar, Bool.and_eq_true, decide_eq_true_eq] at h
      have : ('L' : Char).toNat = 76 := by decide
      omega

theorem word_of_upper_letter {c u : Char} (h : toUpperChar c = u)
    (hu : 65 ≤ u.toNat ∧ u.toNat ≤ 90) : isWordChar c = true := by
  rcases toNat_of_upper_eq h with hn | hn <;>
    · simp only [isWordChar, isDigitChar, Bool.or_eq_true, Bool.and_eq_true,
        decide_eq_true_eq]
      omega

theorem limitMatchHere_anatomy {prev : Option Char} {s r : List Char} {v : Nat}
    {lc : Char} (h : limitMatchHere prev s = some (v, r, lc)) :
    boundaryOkB prev = true ∧
    ∃ lit ws ds, s = lit ++ ws ++ ds ++ r ∧
      lit.map toUpperChar = "LIMIT".data ∧
      ws ≠ [] ∧ ws.all isSpaceChar = true ∧
      ds ≠ [] ∧ ds.all isDigitChar = true ∧
      v = digitsVal ds ∧ lc = ds.getLastD '0' ∧
      boundaryOkB r.head? = true := by
  unfold limitMatchHere at h
  split at h
  · rename_i hc
    obtain ⟨hb, hlit⟩ := hc
    unfold limitTail at h
    split at h
    · exact absurd h (by simp)
    · split at h
      · exact absurd h (by simp)
      · split at h
        · rename_i hws hds hbnd
          injection h with h'
          injection h' with hv hrest
          injection hrest with hr hlc
          refine ⟨hb, s.take 5, (s.drop 5).takeWhile isSpaceChar,
            ((s.drop 5).dropWhile isSpaceChar).takeWhile isDigitChar,
            ?_, hlit, ?_, all_takeWhile _ _, ?_, all_takeWhile _ _,
            hv.symm, hlc.symm, ?_⟩
          · rw [← hr, List.append_assoc, List.append_assoc,
              List.takeWhile_append_dropWhile, List.takeWhile_append_dropWhile,
              List.take_append_drop]
          · simpa using hws
          · simpa using hds
          · rw [← hr]
            exact hbnd
        · exact absurd h (by simp)
  · exact absurd h (by simp)

theorem limitMatchHere_build {prev : Option Char} (hb : boundaryOkB prev = true)
    {ds Y : List Char} (hds : ds ≠ []) (hall : ds.all isDigitChar = true)
    (hY : boundaryOkB Y.head? = true) :
    limitMatchHere prev ("LIMIT ".data ++ (ds ++ Y)) =
      some (digitsVal ds, Y, ds.getLastD '0') := by
  have hsplit : "LIMIT ".data ++ (ds ++ Y) = "LIMIT".data ++ (' ' :: (ds ++ Y)) := rfl
  rw [hsplit]
  have htYnil : Y.takeWhile isDigitChar = [] := by
    cases hy : Y with
    | nil => rfl
    | cons y ys =>
        rw [hy] at hY
        simp only [List.head?_cons, boundaryOkB] at hY
        rw [List.takeWhile_cons_of_neg]
        rw [not_word_not_digit (by simpa using hY)]
        simp
  have hdYt : (ds ++ Y).takeWhile isDigitChar = ds := by
    rw [takeWhile_append_all hall, htYnil, List.append_nil]
  have hdYd : (ds ++ Y).dropWhile isDigitChar = Y := by
    rw [dropWhile_append_all hall]
    cases hy : Y with
    | nil => rfl
    | cons y ys =>
        rw [hy] at hY
        simp only [List.head?_cons, boundaryOkB] at hY
        rw [List.dropWhile_cons_of_neg]
        rw [not_word_not_digit (by simpa using hY)]
        simp
  have hdnospace : (ds ++ Y).takeWhile isSpaceChar = [] := by
    cases ds with
    | nil => exact absurd rfl hds
    | cons a as =>
        simp only [List.all_cons, Bool.and_eq_true] at hall
        rw [List.cons_append, List.takeWhile_cons_of_neg]
        rw [digit_not_space hall.1]
        simp
  unfold limitMatchHere
  rw [if_pos]
  · have hdrop : ("LIMIT".data ++ (' ' :: (ds ++ Y))).drop 5 = ' ' :: (ds ++ Y) := by
      have : ("LIMIT".data : List Char).length = 5 := by decide
      rw [← this, List.drop_left]
    rw [hdrop]
    unfold limitTail
    have htw : (' ' :: (ds ++ Y)).takeWhile isSpaceChar = [' '] := by
      rw [List.takeWhile_cons_of_pos (by decide), hdnospace]
    have hdw : (' ' :: (ds ++ Y)).dropWhile isSpaceChar = ds ++ Y := by
      rw [List.dropWhile_cons_of_pos (by decide)]
      cases ds with
      | nil => exact absurd rfl hds
      | cons a as =>
          simp only [List.all_cons, Bool.and_eq_true] at hall
          rw [List.cons_append, List.dropWhile_cons_of_neg]
          rw [digit_not_space hall.1]
          simp
    rw [htw, hdw, hdYt, hdYd]
    rw [if_neg (by simp), if_neg (by simpa using hds), if_pos hY]
  · constructor
    · exact hb
    · have : ("LIMIT".data : List Char).length = 5 := by decide
      rw [← this, List.take_left]
      decide

theorem limitSub_head_space {d : List Char} {q : Option Char} {c : Char}
    {rest : List Char} (hc : isSpaceChar c = true) :
    limitSub d q (c :: rest) = c :: limitSub d (some c) rest :=
  limitSub_cons_none (limitMatchHere_head_ne (upper_ne_L_of_space hc) q rest)

theorem limitSub_head_digit {d : List Char} {q : Option Char} {c : Char}
    {rest : List Char} (hc : isDigitChar c = true) :
    limitSub d q (c :: rest) = c :: limitSub d (some c) rest :=
  limitSub_cons_none (limitMatchHere_head_ne (upper_ne_L_of_digit hc) q rest)

/-- Substitution commutes with splitting off the leading whitespace run:
the run is preserved literally, and the remainder is the substitution of
the original remainder (with a whitespace previous-character when the
run is nonempty). -/
theorem limitSub_spaces (d : List Char) (t : List Char) : ∀ (q : Option Char),
    (limitSub d q t).takeWhile isSpaceChar = t.takeWhile isSpaceChar ∧
    ((t.takeWhile isSpaceChar = [] ∧
        (limitSub d q t).dropWhile isSpaceChar = limitSub d q (t.dropWhile isSpaceChar)) ∨
     (t.takeWhile isSpaceChar ≠ [] ∧ ∃ w, isSpaceChar w = true ∧
        (limitSub d q t).dropWhile isSpaceChar =
          limitSub d (some w) (t.dropWhile isSpaceChar))) := by
  induction t with
  | nil => intro q; exact ⟨rfl, Or.inl ⟨rfl, rfl⟩⟩
  | cons c rest ih =>
      intro q
      by_cases hc : isSpaceChar c = true
      · rw [limitSub_head_space hc, List.takeWhile_cons_of_pos hc,
          List.takeWhile_cons_of_pos hc, List.dropWhile_cons_of_pos hc,
          List.dropWhile_cons_of_pos hc]
        obtain ⟨ih1, ih2⟩ := ih (some c)
        refine ⟨by rw [ih1], Or.inr ⟨by simp, ?_⟩⟩
        rcases ih2 with ⟨-, h2⟩ | ⟨-, w, hw, h2⟩
        · exact ⟨c, hc, h2⟩
        · exact ⟨w, hw, h2⟩
      · have hc' : isSpaceChar c = false := by simpa using hc
        have hhead : ∀ (z : List Char), (limitSub d q (c :: rest)).takeWhile isSpaceChar =
            [] ∧ (limitSub d q (c :: rest)).dropWhile isSpaceChar =
            limitSub d q (c :: rest) ∨ z = z := fun _ => by
          cases hm : limitMatchHere q (c :: rest) with
          | none =>
              rw [limitSub_cons_none hm, List.takeWhile_cons_of_neg (by simp [hc']),
                List.dropWhile_cons_of_neg (by simp [hc'])]
              exact Or.inl ⟨rfl, rfl⟩
          | some r =>
              obtain ⟨v, after, lc⟩ := r
              rw [limitSub_cons_some hm]
              have : (("LIMIT ".data ++ d) ++ limitSub d (some lc) after).takeWhile
                  isSpaceChar = [] ∧
                  (("LIMIT ".data ++ d) ++ limitSub d (some lc) after).dropWhile
                  isSpaceChar = ("LIMIT ".data ++ d) ++ limitSub d (some lc) after := by
                constructor
                · rw [List.append_assoc, List.cons_append,
                    List.takeWhile_cons_of_neg (by decide)]
                · rw [List.append_assoc, List.cons_append,
                    List.dropWhile_cons_of_neg (by decide), ← List.cons_append,
                    ← List.append_assoc]
              exact Or.inl this
        obtain h | - := hhead []
        · rw [List.takeWhile_cons_of_neg (by simp [hc']),
            List.dropWhile_cons_of_neg (by simp [hc'])]
          exact ⟨h.1, Or.inl ⟨rfl, h.2⟩⟩
        · rw [List.takeWhile_cons_of_neg (by simp [hc']),
            List.dropWhile_cons_of_neg (by simp [hc'])]
          cases hm : limitMatchHere q (c :: rest) with
          | none =>
              rw [limitSub_cons_none hm, List.takeWhile_cons_of_neg (by simp [hc']),
                List.dropWhile_cons_of_neg (by simp [hc'])]
              exact ⟨rfl, Or.inl ⟨rfl, rfl⟩⟩
          | some r =>
              obtain ⟨v, after, lc⟩ := r
              rw [limitSub_cons_some hm]
              constructor
              · rw [List.append_assoc, List.cons_append,
                  List.takeWhile_cons_of_neg (by decide)]
              · refine Or.inl ⟨rfl, ?_⟩
                rw [List.append_assoc, List.cons_append,
                  List.dropWhile_cons_of_neg (by decide), ← List.cons_append,
                  ← List.append_assoc, ← limitSub_cons_some hm]

/-- Substitution commutes with splitting off the leading digit run. -/
theorem limitSub_digits (d : List Char) (t : List Char) : ∀ (q : Option Char),
    (limitSub d q t).takeWhile isDigitChar = t.takeWhile isDigitChar ∧
    ((t.takeWhile isDigitChar = [] ∧
        (limitSub d q t).dropWhile isDigitChar = limitSub d q (t.dropWhile isDigitChar)) ∨
     (t.takeWhile isDigitChar ≠ [] ∧ ∃ w, isDigitChar w = true ∧
        (limitSub d q t).dropWhile isDigitChar =
          limitSub d (some w) (t.dropWhile isDigitChar))) := by
  induction t with
  | nil => intro q; exact ⟨rfl, Or.inl ⟨rfl, rfl⟩⟩
  | cons c rest ih =>
      intro q
      by_cases hc : isDigitChar c = true
      · rw [limitSub_head_digit hc, List.takeWhile_cons_of_pos hc,
          List.takeWhile_cons_of_pos hc, List.dropWhile_cons_of_pos hc,
          List.dropWhile_cons_of_pos hc]
        obtain ⟨ih1, ih2⟩ := ih (some c)
        refine ⟨by rw [ih1], Or.inr ⟨by simp, ?_⟩⟩
        rcases ih2 with ⟨-, h2⟩ | ⟨-, w, hw, h2⟩
        · exact ⟨c, hc, h2⟩
        · exact ⟨w, hw, h2⟩
      · have hc' : isDigitChar c = false := by simpa using hc
        rw [List.takeWhile_cons_of_neg (by simp [hc']),
          List.dropWhile_cons_of_neg (by simp [hc'])]
        cases hm : limitMatchHere q (c :: rest) with
        | none =>
            rw [limitSub_cons_none hm, List.takeWhile_cons_of_neg (by simp [hc']),
              List.dropWhile_cons_of_neg (by simp [hc'])]
            exact ⟨rfl, Or.inl ⟨rfl, rfl⟩⟩
        | some r =>
            obtain ⟨v, after, lc⟩ := r
            rw [limitSub_cons_some hm]
            constructor
            · rw [List.append_assoc, List.cons_append,
                List.takeWhile_cons_of_neg (by decide)]
            · refine Or.inl ⟨rfl, ?_⟩
              rw [List.append_assoc, List.cons_append,
                List.dropWhile_cons_of_neg (by decide), ← List.cons_append,
                ← List.append_assoc, ← limitSub_cons_some hm]

/-- If the tail part of the pattern fails on `t` and no match can start
at the head of `t` (previous character is a word character), it still
fails after global substitution. -/
theorem limitTail_sub_none {d : List Char} {q : Option Char} {t : List Char}
    (hq : boundaryOkB q = false) (h : limitTail t = none) :
    limitTail (limitSub d q t) = none := by
  obtain ⟨hs1, hs2⟩ := limitSub_spaces d t q
  unfold limitTail at h ⊢
  rw [hs1]
  by_cases hws : (t.takeWhile isSpaceChar).isEmpty = true
  · rw [if_pos hws]
  · rw [if_neg hws] at h ⊢
    have hwsne : t.takeWhile isSpaceChar ≠ [] := by
      simpa [List.isEmpty_iff] using hws
    rcases hs2 with ⟨hnil, -⟩ | ⟨-, w, hw, hdrop⟩
    · exact absurd hnil hwsne
    · rw [hdrop]
      obtain ⟨hd1, hd2⟩ := limitSub_digits d (t.dropWhile isSpaceChar) (some w)
      rw [hd1]
      by_cases hds : ((t.dropWhile isSpaceChar).takeWhile isDigitChar).isEmpty = true
      · rw [if_pos hds]
      · rw [if_neg hds] at h ⊢
        have hdsne : (t.dropWhile isSpaceChar).takeWhile isDigitChar ≠ [] := by
          simpa [List.isEmpty_iff] using hds
        rcases hd2 with ⟨hnil, -⟩ | ⟨-, w2, hw2, hdrop2⟩
        · exact absurd hnil hdsne
        · rw [hdrop2]
          by_cases hb : boundaryOkB ((t.dropWhile isSpaceChar).dropWhile
              isDigitChar).head? = true
          · rw [if_pos hb] at h
            exact absurd h (by simp)
          · have hb' : boundaryOkB ((t.dropWhile isSpaceChar).dropWhile
                isDigitChar).head? = false := by simpa using hb
            cases hx : (t.dropWhile isSpaceChar).dropWhile isDigitChar with
            | nil => rw [hx] at hb'; simp [boundaryOkB] at hb'
            | cons x r' =>
                rw [hx] at hb'
                simp only [List.head?_cons, boundaryOkB] at hb'
                have hword : isWordChar x = true := by simpa using hb'
                have hqb : boundaryOkB (some w2) = false := by
                  simp [boundaryOkB, digit_word hw2]
                have hsub : limitSub d (some w2) (x :: r') = x :: limitSub d (some x) r' :=
                  limitSub_cons_none (limitMatchHere_not_boundary hqb (x :: r'))
                rw [hsub]
                rw [if_neg]
                simp [boundaryOkB, hword]

/-- Global substitution preserves the upper-cased content of the first
five characters. -/
theorem limitSub_upper_take (d : List Char) (s : List Char) :
    ∀ (n : Nat) (q : Option Char), n ≤ 5 →
    ((limitSub d q s).map toUpperChar).take n = (s.map toUpperChar).take n := by
  induction s with
  | nil => intro n q _; rfl
  | cons c rest ih =>
      intro n q hn
      cases hm : limitMatchHere q (c :: rest) with
      | none =>
          rw [limitSub_cons_none hm]
          cases n with
          | zero => simp
          | succ n =>
              rw [List.map_cons, List.map_cons, List.take_succ_cons, List.take_succ_cons,
                ih n (some c) (by omega)]
      | some r =>
          obtain ⟨v, after, lc⟩ := r
          rw [limitSub_cons_some hm]
          obtain ⟨-, lit, ws, ds, hsplit, hlit, -, -, -, -, -, -, -⟩ :=
            limitMatchHere_anatomy hm
          have hlitlen : (lit.map toUpperChar).length = 5 := by rw [hlit]; rfl
          have hlitlen' : lit.length = 5 := by simpa using hlitlen
          have lhs : ((("LIMIT ".data ++ d) ++ limitSub d (some lc) after).map
              toUpperChar).take n = ("LIMIT".data).take n := by
            rw [List.append_assoc, List.map_append, List.take_append_eq_append_take]
            have hmap6 : ("LIMIT ".data).map toUpperChar = "LIMIT".data ++ [' '] := by
              decide
            rw [hmap6]
            have hlen6 : (("LIMIT".data ++ [' ']) : List Char).length = 6 := by decide
            rw [hlen6, Nat.sub_eq_zero_of_le (by omega), List.take_zero,
              List.append_nil, List.take_append_eq_append_take]
            have hlen5 : ("LIMIT".data : List Char).length = 5 := by decide
            rw [hlen5, Nat.sub_eq_zero_of_le (by omega), List.take_zero,
              List.append_nil]
          have rhs : ((lit ++ (ws ++ (ds ++ after))).map toUpperChar).take n =
              ("LIMIT".data).take n := by
            rw [List.map_append, List.take_append_eq_append_take, hlit]
            have hlen5 : (("LIMIT".data : List Char)).length = 5 := by decide
            rw [hlen5, Nat.sub_eq_zero_of_le (by omega), List.take_zero,
              List.append_nil]
          rw [lhs]
          have hsplit' : c :: rest = lit ++ (ws ++ (ds ++ after)) := by
            rw [hsplit]; simp [List.append_assoc]
          rw [hsplit', rhs]

/-- If no match starts at `c` in `c :: rest`, then no match starts at
`c` after the tail has been globally substituted. -/
theorem limitMatchHere_sub_none {d : List Char} {q : Option Char} {c : Char}
    {rest : List Char} (h : limitMatchHere q (c :: rest) = none) :
    limitMatchHere q (c :: limitSub d (some c) rest) = none := by
  by_cases hb : boundaryOkB q = true
  · by_cases hlit : ((c :: rest).take 5).map toUpperChar = "LIMIT".data
    · have htail : limitTail ((c :: rest).drop 5) = none := by
        unfold limitMatchHere at h
        rw [if_pos ⟨hb, hlit⟩] at h
        exact h
      rw [List.take_succ_cons, List.map_cons] at hlit
      have hIMIT : (rest.take 4).map toUpperChar = "IMIT".data := by
        injection hlit
      have hcL : toUpperChar c = 'L' := by injection hlit
      have hlen4 : 4 ≤ rest.length := by
        have hl := congrArg List.length hIMIT
        simp only [List.length_map, List.length_take] at hl
        have : min 4 rest.length = 4 := by simpa using hl
        omega
      obtain ⟨r0, r1, r2, r3, rest4, hrest⟩ :
          ∃ r0 r1 r2 r3 rest4, rest = r0 :: r1 :: r2 :: r3 :: rest4 := by
        cases rest with
        | nil => simp at hlen4
        | cons a w1 =>
            cases w1 with
            | nil => simp at hlen4
            | cons b w2 =>
                cases w2 with
                | nil => simp at hlen4
                | cons e w3 =>
                    cases w3 with
                    | nil => simp at hlen4
                    | cons f w4 => exact ⟨a, b, e, f, w4, rfl⟩
      subst hrest
      rw [show ((r0 :: r1 :: r2 :: r3 :: rest4).take 4) = [r0, r1, r2, r3] from rfl]
        at hIMIT
      simp only [List.map_cons, List.map_nil] at hIMIT
      injection hIMIT with h0 hIM1
      injection hIM1 with h1 hIM2
      injection hIM2 with h2 hIM3
      injection hIM3 with h3 _
      have wc : isWordChar c = true := word_of_upper_letter hcL (by decide)
      have w0 : isWordChar r0 = true := word_of_upper_letter h0 (by decide)
      have w1' : isWordChar r1 = true := word_of_upper_letter h1 (by decide)
      have w2' : isWordChar r2 = true := word_of_upper_letter h2 (by decide)
      have w3' : isWordChar r3 = true := word_of_upper_letter h3 (by decide)
      have hs0 : limitSub d (some c) (r0 :: r1 :: r2 :: r3 :: rest4) =
          r0 :: limitSub d (some r0) (r1 :: r2 :: r3 :: rest4) :=
        limitSub_cons_none (limitMatchHere_not_boundary (by simp [boundaryOkB, wc]) _)
      have hs1 : limitSub d (some r0) (r1 :: r2 :: r3 :: rest4) =
          r1 :: limitSub d (some r1) (r2 :: r3 :: rest4) :=
        limitSub_cons_none (limitMatchHere_not_boundary (by simp [boundaryOkB, w0]) _)
      have hs2 : limitSub d (some r1) (r2 :: r3 :: rest4) =
          r2 :: limitSub d (some r2) (r3 :: rest4) :=
        limitSub_cons_none (limitMatchHere_not_boundary (by simp [boundaryOkB, w1']) _)
      have hs3 : limitSub d (some r2) (r3 :: rest4) =
          r3 :: limitSub d (some r3) rest4 :=
        limitSub_cons_none (limitMatchHere_not_boundary (by simp [boundaryOkB, w2']) _)
      rw [hs0, hs1, hs2, hs3]
      unfold limitMatchHere
      rw [if_pos]
      · show limitTail (limitSub d (some r3) rest4) = none
        exact @limitTail_sub_none d (some r3) rest4
          (by simp [boundaryOkB, w3']) htail
      · constructor
        · exact hb
        · show ((c :: r0 :: r1 :: r2 :: r3 :: limitSub d (some r3) rest4).take 5).map
            toUpperChar = "LIMIT".data
          rw [show (c :: r0 :: r1 :: r2 :: r3 :: limitSub d (some r3) rest4).take 5 =
            [c, r0, r1, r2, r3] from rfl]
          simp only [List.map_cons, List.map_nil, hcL, h0, h1, h2, h3]
    · unfold limitMatchHere
      rw [if_neg]
      rintro ⟨-, hlit2⟩
      apply hlit
      have hU := limitSub_upper_take d rest 4 (some c) (by omega)
      rw [List.take_succ_cons, List.map_cons] at hlit2 ⊢
      rw [List.map_take, ← hU, ← List.map_take]
      exact hlit2
  · exact limitMatchHere_not_boundary (by simpa using hb) _

/-- Scanning after a global substitution with `LIMIT <d>` yields one
match per original match, each with value `digitsVal d`. -/
theorem limitScan_limitSub {d : List Char} (hd : d ≠ [])
    (hall : d.all isDigitChar = true) :
    ∀ (N : Nat) (s : List Char), s.length ≤ N → ∀ (p1 p2 : Option Char),
      boundaryOkB p1 = boundaryOkB p2 →
      limitScan p1 (limitSub d p2 s) =
        (limitScan p2 s).map (fun _ => digitsVal d) := by
  intro N
  induction N with
  | zero =>
      intro s hs p1 p2 hp
      have hnil : s = [] := List.eq_nil_of_length_eq_zero (by omega)
      subst hnil
      rfl
  | succ N ih =>
      intro s hs p1 p2 hp
      cases s with
      | nil => rfl
      | cons c rest =>
          cases hm : limitMatchHere p2 (c :: rest) with
          | none =>
              rw [limitSub_cons_none hm]
              have hm1 : limitMatchHere p1 (c :: limitSub d (some c) rest) = none := by
                rw [limitMatchHere_congr hp]
                exact limitMatchHere_sub_none hm
              rw [limitScan_cons_none hm1, limitScan_cons_none hm]
              exact ih rest (by simp at hs; omega) (some c) (some c) rfl
          | some r =>
              obtain ⟨v, after, lc⟩ := r
              obtain ⟨hb2, lit, ws, ds, hsplit, hlit, hwsne, hws, hdsne, hdsall,
                hv, hlc, hbafter⟩ := limitMatchHere_anatomy hm
              have hlcd : isDigitChar lc = true := by
                rw [hlc]
                exact all_getLastD hdsne hdsall
              have hY : boundaryOkB (limitSub d (some lc) after).head? = true := by
                cases hafter : after with
                | nil => rfl
                | cons a as =>
                    have hba : boundaryOkB (some a) = true := by
                      rw [hafter] at hbafter
                      simpa using hbafter
                    rw [limitSub_cons_none (limitMatchHere_not_boundary
                      (by simp [boundaryOkB, digit_word hlcd]) _)]
                    simpa using hba
              have hbuild := @limitMatchHere_build p1
                (by rw [hp]; exact hb2) d (limitSub d (some lc) after) hd hall hY
              rw [limitSub_cons_some hm, List.append_assoc]
              have hcons : "LIMIT ".data ++ (d ++ limitSub d (some lc) after) =
                  'L' :: ("IMIT ".data ++ (d ++ limitSub d (some lc) after)) := rfl
              rw [hcons] at hbuild ⊢
              rw [limitScan_cons_some hbuild]
              rw [limitScan_cons_some hm]
              have hdl : isDigitChar (d.getLastD '0') = true := all_getLastD hd hall
              have hlen := limitMatchHere_length hm
              have e1 : boundaryOkB (some (d.getLastD '0')) = false := by
                rw [show boundaryOkB (some (d.getLastD '0')) =
                  !isWordChar (d.getLastD '0') from rfl, digit_word hdl]
                rfl
              have e2 : boundaryOkB (some lc) = false := by
                rw [show boundaryOkB (some lc) = !isWordChar lc from rfl,
                  digit_word hlcd]
                rfl
              rw [ih after (by simp at hlen hs ⊢; omega) (some (d.getLastD '0'))
                (some lc) (by rw [e1, e2])]
              rfl

/-- Appending a final `';'` does not change how the tail part of the
pattern matches, beyond carrying the `';'` into the remainder. -/
theorem limitTail_semi (u : List Char) :
    limitTail (u ++ [';']) =
      match limitTail u with
      | some (v, r, lc) => some (v, r ++ [';'], lc)
      | none => none := by
  obtain ⟨hts, hds⟩ := @takeWhile_append_single isSpaceChar ';'
    (by decide) u
  unfold limitTail
  rw [hts, hds]
  by_cases hws : (u.takeWhile isSpaceChar).isEmpty = true
  · rw [if_pos hws, if_pos hws]
  · rw [if_neg hws, if_neg hws]
    obtain ⟨htd, hdd⟩ := @takeWhile_append_single isDigitChar ';'
      (by decide) (u.dropWhile isSpaceChar)
    rw [htd, hdd]
    by_cases hdse : ((u.dropWhile isSpaceChar).takeWhile isDigitChar).isEmpty = true
    · rw [if_pos hdse, if_pos hdse]
    · rw [if_neg hdse, if_neg hdse]
      cases hr : (u.dropWhile isSpaceChar).dropWhile isDigitChar with
      | nil =>
          rw [List.nil_append]
          rw [show boundaryOkB (([';'] : List Char)).head? = true from by decide]
          rw [show boundaryOkB (([] : List Char).head?) = true from rfl]
          simp
      | cons x r' =>
          simp only [List.cons_append, List.head?_cons]
          by_cases hx : boundaryOkB (some x) = true
          · rw [if_pos hx, if_pos hx]
            simp
          · rw [if_neg hx, if_neg hx]

/-- Appending a final `';'` preserves match structure: the values are
unchanged and the remainder of a match merely carries the `';'`. -/
theorem limitMatchHere_semi (p : Option Char) (t : List Char) :
    limitMatchHere p (t ++ [';']) =
      match limitMatchHere p t with
      | some (v, r, lc) => some (v, r ++ [';'], lc)
      | none => none := by
  by_cases hb : boundaryOkB p = true
  · by_cases hlen : 5 ≤ t.length
    · have htake : (t ++ [';']).take 5 = t.take 5 :=
        List.take_append_of_le_length hlen
      have hdrop : (t ++ [';']).drop 5 = t.drop 5 ++ [';'] :=
        List.drop_append_of_le_length hlen
      unfold limitMatchHere
      rw [htake, hdrop]
      by_cases hlit : (t.take 5).map toUpperChar = "LIMIT".data
      · rw [if_pos ⟨hb, hlit⟩, if_pos ⟨hb, hlit⟩]
        exact limitTail_semi (t.drop 5)
      · rw [if_neg (by rintro ⟨-, h2⟩; exact hlit h2),
          if_neg (by rintro ⟨-, h2⟩; exact hlit h2)]
    · have h1 : ¬(t.take 5).map toUpperChar = "LIMIT".data := by
        intro h
        have := congrArg List.length h
        simp only [List.length_map, List.length_take] at this
        have : min 5 t.length = 5 := by simpa using this
        omega
      have h2 : ¬((t ++ [';']).take 5).map toUpperChar = "LIMIT".data := by
        intro h
        have hlens := congrArg List.length h
        simp only [List.length_map, List.length_take, List.length_append,
          List.length_cons, List.length_nil] at hlens
        have hlen5 : t.length + 1 = 5 := by
          have : min 5 (t.length + 1) = 5 := by simpa using hlens
          omega
        have htk : (t ++ [';']).take 5 = t ++ [';'] :=
          List.take_of_length_le (by simp; omega)
        rw [htk, List.map_append] at h
        have hlast := congrArg List.getLast? h
        simp at hlast
        exact absurd hlast (by decide)
      unfold limitMatchHere
      rw [if_neg (by rintro ⟨-, hc⟩; exact h2 hc),
        if_neg (by rintro ⟨-, hc⟩; exact h1 hc)]
  · have hb' : boundaryOkB p = false := by simpa using hb
    rw [limitMatchHere_not_boundary hb', limitMatchHere_not_boundary hb']

/-- Scanning is unchanged by a final `';'`. -/
theorem limitScan_append_semi :
    ∀ (N : Nat) (s : List Char), s.length ≤ N → ∀ (p : Option Char),
      limitScan p (s ++ [';']) = limitScan p s := by
  intro N
  induction N with
  | zero =>
      intro s hs p
      have hnil : s = [] := List.eq_nil_of_length_eq_zero (by omega)
      subst hnil
      rw [List.nil_append, limitScan_cons_none
        (limitMatchHere_head_ne (by decide) p []), limitScan_nil, limitScan_nil]
  | succ N ih =>
      intro s hs p
      cases s with
      | nil =>
          rw [List.nil_append, limitScan_cons_none
            (limitMatchHere_head_ne (by decide) p []), limitScan_nil, limitScan_nil]
      | cons c rest =>
          have hsemi := limitMatchHere_semi p (c :: rest)
          cases hm : limitMatchHere p (c :: rest) with
          | none =>
              rw [hm] at hsemi
              rw [List.cons_append] at hsemi
              rw [List.cons_append, limitScan_cons_none hsemi,
                limitScan_cons_none hm]
              exact ih rest (by simp at hs; omega) (some c)
          | some r =>
              obtain ⟨v, after, lc⟩ := r
              rw [hm] at hsemi
              rw [List.cons_append] at hsemi
              have hlen := limitMatchHere_length hm
              rw [List.cons_append, limitScan_cons_some hsemi,
                limitScan_cons_some hm,
                ih after (by simp at hlen hs ⊢; omega) (some lc)]

/-- If the tail part fails on `u`, it still fails when `u` is extended
by a space, a non-space non-digit character, and anything after. -/
theorem limitTail_append_pad {y : Char} {X : List Char}
    (hy1 : isSpaceChar y = false) (hy2 : isDigitChar y = false)
    {u : List Char} (h : limitTail u = none) :
    limitTail (u ++ (' ' :: y :: X)) = none := by
  by_cases hu1 : u.dropWhile isSpaceChar = []
  · have hall : u.all isSpaceChar = true := all_dropWhile_nil hu1
    have htw : (u ++ (' ' :: y :: X)).takeWhile isSpaceChar = u ++ [' '] := by
      rw [takeWhile_append_all hall, List.takeWhile_cons_of_pos (by decide),
        List.takeWhile_cons_of_neg (by simp [hy1])]
    have hdw : (u ++ (' ' :: y :: X)).dropWhile isSpaceChar = y :: X := by
      rw [dropWhile_append_all hall, List.dropWhile_cons_of_pos (by decide),
        List.dropWhile_cons_of_neg (by simp [hy1])]
    unfold limitTail
    rw [htw, hdw, if_neg (by simp), List.takeWhile_cons_of_neg (by simp [hy2]),
      if_pos (by simp)]
  · have htw : (u ++ (' ' :: y :: X)).takeWhile isSpaceChar =
        u.takeWhile isSpaceChar := takeWhile_append_stop hu1 _
    have hdw : (u ++ (' ' :: y :: X)).dropWhile isSpaceChar =
        u.dropWhile isSpaceChar ++ (' ' :: y :: X) := dropWhile_append_stop hu1 _
    unfold limitTail at h ⊢
    rw [htw, hdw]
    by_cases hws : (u.takeWhile isSpaceChar).isEmpty = true
    · rw [if_pos hws]
    · rw [if_neg hws] at h ⊢
      by_cases hr : (u.dropWhile isSpaceChar).dropWhile isDigitChar = []
      · exfalso
        have halld : (u.dropWhile isSpaceChar).all isDigitChar = true :=
          all_dropWhile_nil hr
        have hds : (u.dropWhile isSpaceChar).takeWhile isDigitChar =
            u.dropWhile isSpaceChar := takeWhile_eq_self_of_all halld
        rw [hds, hr] at h
        rw [if_neg (by simpa [List.isEmpty_iff] using hu1)] at h
        rw [if_pos (by rfl)] at h
        exact absurd h (by simp)
      · have htd : (u.dropWhile isSpaceChar ++ (' ' :: y :: X)).takeWhile
            isDigitChar = (u.dropWhile isSpaceChar).takeWhile isDigitChar :=
          takeWhile_append_stop hr _
        have hdd : (u.dropWhile isSpaceChar ++ (' ' :: y :: X)).dropWhile
            isDigitChar = (u.dropWhile isSpaceChar).dropWhile isDigitChar ++
            (' ' :: y :: X) := dropWhile_append_stop hr _
        rw [htd, hdd]
        by_cases hds : ((u.dropWhile isSpaceChar).takeWhile isDigitChar).isEmpty = true
        · rw [if_pos hds]
        · rw [if_neg hds] at h ⊢
          cases hx : (u.dropWhile isSpaceChar).dropWhile isDigitChar with
          | nil => exact absurd hx hr
          | cons x r' =>
              rw [hx] at h
              by_cases hbx : boundaryOkB (some x) = true
              · rw [if_pos (by simpa using hbx)] at h
                exact absurd h (by simp)
              · rw [List.cons_append]
                rw [if_neg (by simpa using hbx)]

/-- If nothing matches at the start of `t`, nothing matches there after
appending a space, a non-space non-digit character, and anything after. -/
theorem limitMatchHere_append_pad {p : Option Char} {t : List Char} {y : Char}
    {X : List Char} (hy1 : isSpaceChar y = false) (hy2 : isDigitChar y = false)
    (h : limitMatchHere p t = none) :
    limitMatchHere p (t ++ (' ' :: y :: X)) = none := by
  by_cases hb : boundaryOkB p = true
  · by_cases hlen : 5 ≤ t.length
    · have htake : (t ++ (' ' :: y :: X)).take 5 = t.take 5 :=
        List.take_append_of_le_length hlen
      have hdrop : (t ++ (' ' :: y :: X)).drop 5 = t.drop 5 ++ (' ' :: y :: X) :=
        List.drop_append_of_le_length hlen
      unfold limitMatchHere at h ⊢
      rw [htake, hdrop]
      by_cases hlit : (t.take 5).map toUpperChar = "LIMIT".data
      · rw [if_pos ⟨hb, hlit⟩] at h ⊢
        exact limitTail_append_pad hy1 hy2 h
      · rw [if_neg (by rintro ⟨-, hc⟩; exact hlit hc)]
    · unfold limitMatchHere
      rw [if_neg]
      rintro ⟨-, hlit⟩
      have htk : (t ++ (' ' :: y :: X)).take 5 =
          t ++ (' ' :: y :: X).take (5 - t.length) := by
        rw [List.take_append_eq_append_take, List.take_of_length_le (by omega)]
      rw [htk] at hlit
      have hkpos : 1 ≤ 5 - t.length := by omega
      have hsp : ' ' ∈ t ++ (' ' :: y :: X).take (5 - t.length) := by
        apply List.mem_append_right
        cases hk : 5 - t.length with
        | zero => omega
        | succ k => rw [List.take_succ_cons]; exact List.mem_cons_self _ _
      have : ' ' ∈ "LIMIT".data := by
        rw [← hlit]
        exact List.mem_map_of_mem toUpperChar hsp
      exact absurd this (by decide)
  · exact limitMatchHere_not_boundary (by simpa using hb) _

/-- Appending ` LIMIT <d>` to a string with no match yields exactly one
match, capturing `digitsVal d`. -/
theorem limitScan_append_limit {d : List Char} (hd : d ≠ [])
    (hall : d.all isDigitChar = true) :
    ∀ (N : Nat) (s : List Char), s.length ≤ N → ∀ (p : Option Char),
      limitScan p s = [] →
      limitScan p (s ++ (' ' :: ("LIMIT ".data ++ d))) = [digitsVal d] := by
  intro N
  induction N with
  | zero =>
      intro s hs p _
      have hnil : s = [] := List.eq_nil_of_length_eq_zero (by omega)
      subst hnil
      rw [List.nil_append]
      rw [limitScan_cons_none (limitMatchHere_head_ne (by decide) p _)]
      have hbuild := @limitMatchHere_build (some ' ') (by decide) d []
        hd hall (by rfl)
      rw [List.append_nil] at hbuild
      have hcons : "LIMIT ".data ++ d = 'L' :: ("IMIT ".data ++ d) := rfl
      rw [hcons] at hbuild ⊢
      rw [limitScan_cons_some hbuild, limitScan_nil]
  | succ N ih =>
      intro s hs p hscan
      cases s with
      | nil =>
          rw [List.nil_append]
          rw [limitScan_cons_none (limitMatchHere_head_ne (by decide) p _)]
          have hbuild := @limitMatchHere_build (some ' ') (by decide) d []
            hd hall (by rfl)
          rw [List.append_nil] at hbuild
          have hcons : "LIMIT ".data ++ d = 'L' :: ("IMIT ".data ++ d) := rfl
          rw [hcons] at hbuild ⊢
          rw [limitScan_cons_some hbuild, limitScan_nil]
      | cons c rest =>
          cases hm : limitMatchHere p (c :: rest) with
          | some r =>
              obtain ⟨v, after, lc⟩ := r
              rw [limitScan_cons_some hm] at hscan
              exact absurd hscan (by simp)
          | none =>
              rw [limitScan_cons_none hm] at hscan
              have hpad := @limitMatchHere_append_pad p (c :: rest)
                'L' ("IMIT ".data ++ d) (by decide) (by decide) hm
              have hshape : (c :: rest) ++ (' ' :: 'L' :: ("IMIT ".data ++ d)) =
                  c :: (rest ++ (' ' :: ("LIMIT ".data ++ d))) := rfl
              rw [hshape] at hpad
              have hgoal : (c :: rest) ++ (' ' :: ("LIMIT ".data ++ d)) =
                  c :: (rest ++ (' ' :: ("LIMIT ".data ++ d))) := rfl
              rw [hgoal, limitScan_cons_none hpad]
              exact ih rest (by simp at hs; omega) (some c) hscan

/-! ## Heads, lasts and stripping -/

theorem getLast?_cons_ne {a : Char} {l : List Char} (h : l ≠ []) :
    (a :: l).getLast? = l.getLast? := by
  cases l with
  | nil => exact absurd rfl h
  | cons b t => simp [List.getLast?_cons_cons]

theorem getLast?_append_right {l1 l2 : List Char} (h : l2 ≠ []) :
    (l1 ++ l2).getLast? = l2.getLast? := by
  induction l1 with
  | nil => rfl
  | cons a l1 ih =>
      rw [List.cons_append, getLast?_cons_ne, ih]
      intro hc
      rcases List.append_eq_nil.mp hc with ⟨-, h2⟩
      exact h h2

theorem getLast?_eq_getLastD {l : List Char} (h : l ≠ []) :
    l.getLast? = some (l.getLastD '0') := by
  induction l with
  | nil => exact absurd rfl h
  | cons a l ih =>
      cases l with
      | nil => rfl
      | cons b t =>
          rw [List.getLast?_cons_cons, ih (by simp)]
          rfl

theorem head?_append_left {l1 l2 : List Char} (h : l1 ≠ []) :
    (l1 ++ l2).head? = l1.head? := by
  cases l1 with
  | nil => exact absurd rfl h
  | cons a t => rfl

theorem dropWhile_eq_self_of_head {p : Char → Bool} {l : List Char}
    (h : ∀ c, l.head? = some c → p c = false) : l.dropWhile p = l := by
  cases l with
  | nil => rfl
  | cons a t =>
      rw [List.dropWhile_cons_of_neg]
      rw [h a rfl]
      simp

theorem pyStrip_eq_self {l : List Char}
    (h1 : ∀ c, l.head? = some c → isSpaceChar c = false)
    (h2 : ∀ c, l.getLast? = some c → isSpaceChar c = false) : pyStrip l = l := by
  unfold pyStrip
  rw [dropWhile_eq_self_of_head h1]
  rw [dropWhile_eq_self_of_head (fun c hc => h2 c (by rwa [← List.head?_reverse]))]
  exact List.reverse_reverse l

theorem pyStrip_head_not_space {l : List Char} {c : Char}
    (h : (pyStrip l).head? = some c) : isSpaceChar c = false := by
  unfold pyStrip at h
  set A := l.dropWhile isSpaceChar with hA
  obtain ⟨t, ht⟩ : (A.reverse.dropWhile isSpaceChar) <:+ A.reverse :=
    List.dropWhile_suffix _
  have hApref : (A.reverse.dropWhile isSpaceChar).reverse ++ t.reverse = A := by
    have hc := congrArg List.reverse ht
    rw [List.reverse_append, List.reverse_reverse] at hc
    exact hc
  by_cases hnil : (A.reverse.dropWhile isSpaceChar).reverse = []
  · rw [hnil] at h
    simp at h
  · have hh : A.head? = some c := by
      rw [← hApref, head?_append_left hnil]
      exact h
    rw [hA] at hh
    exact head_dropWhile_false hh

theorem pyStrip_last_not_space {l : List Char} {c : Char}
    (h : (pyStrip l).getLast? = some c) : isSpaceChar c = false := by
  unfold pyStrip at h
  rw [List.getLast?_reverse] at h
  exact head_dropWhile_false h

theorem limitSub_ne_nil {d : List Char} {q : Option Char} {s : List Char}
    (h : s ≠ []) : limitSub d q s ≠ [] := by
  cases s with
  | nil => exact absurd rfl h
  | cons c rest =>
      cases hm : limitMatchHere q (c :: rest) with
      | none => rw [limitSub_cons_none hm]; simp
      | some r =>
          obtain ⟨v, after, lc⟩ := r
          rw [limitSub_cons_some hm]
          simp

theorem limitSub_head_not_space {d : List Char} {q : Option Char} {s : List Char}
    (h : ∀ c, s.head? = some c → isSpaceChar c = false) :
    ∀ c, (limitSub d q s).head? = some c → isSpaceChar c = false := by
  intro c hc
  cases s with
  | nil => simp [limitSub_nil] at hc
  | cons a rest =>
      cases hm : limitMatchHere q (a :: rest) with
      | none =>
          rw [limitSub_cons_none hm] at hc
          simp only [List.head?_cons, Option.some.injEq] at hc
          rw [← hc]
          exact h a rfl
      | some r =>
          obtain ⟨v, after, lc⟩ := r
          rw [limitSub_cons_some hm] at hc
          simp only [List.append_assoc, List.cons_append, List.head?_cons,
            Option.some.injEq] at hc
          rw [← hc]
          decide

theorem limitSub_getLast {d : List Char} (hd : d ≠ [])
    (hall : d.all isDigitChar = true) :
    ∀ (N : Nat) (s : List Char), s.length ≤ N → ∀ (q : Option Char), s ≠ [] →
      (limitSub d q s).getLast? = s.getLast? ∨
      ∃ c, (limitSub d q s).getLast? = some c ∧ isDigitChar c = true := by
  intro N
  induction N with
  | zero =>
      intro s hs q hne
      exact absurd (List.eq_nil_of_length_eq_zero (by omega)) hne
  | succ N ih =>
      intro s hs q hne
      cases s with
      | nil => exact absurd rfl hne
      | cons c rest =>
          cases hm : limitMatchHere q (c :: rest) with
          | none =>
              rw [limitSub_cons_none hm]
              by_cases hrest : rest = []
              · subst hrest
                left
                rfl
              · have hsubne : limitSub d (some c) rest ≠ [] := limitSub_ne_nil hrest
                rw [getLast?_cons_ne hsubne, getLast?_cons_ne hrest]
                exact ih rest (by simp at hs; omega) (some c) hrest
          | some r =>
              obtain ⟨v, after, lc⟩ := r
              rw [limitSub_cons_some hm]
              obtain ⟨-, lit, ws, ds, hsplit, -, -, -, hdsne, hdsall, -, hlc, hba⟩ :=
                limitMatchHere_anatomy hm
              by_cases hafter : after = []
              · right
                subst hafter
                rw [show limitSub d (some lc) [] = [] from rfl,
                  List.append_nil, getLast?_append_right hd]
                exact ⟨d.getLastD '0', getLast?_eq_getLastD hd, all_getLastD hd hall⟩
              · have hsubne : limitSub d (some lc) after ≠ [] := limitSub_ne_nil hafter
                rw [getLast?_append_right hsubne]
                have hslast : (c :: rest).getLast? = after.getLast? := by
                  rw [hsplit, getLast?_append_right hafter]
                rw [hslast]
                have hlen := limitMatchHere_length hm
                exact ih after (by simp at hlen hs ⊢; omega) (some lc) hafter

/-- The preprocessed body is a fixed point of `pyStrip`. -/
theorem enfBody_pyStrip (sql : List Char) : pyStrip (enfBody sql) = enfBody sql := by
  unfold enfBody
  split
  · exact pyStrip_eq_self (fun c hc => pyStrip_head_not_space hc)
      (fun c hc => pyStrip_last_not_space hc)
  · exact pyStrip_eq_self (fun c hc => pyStrip_head_not_space hc)
      (fun c hc => pyStrip_last_not_space hc)

theorem enfBody_head_not_space {sql : List Char} {c : Char}
    (h : (enfBody sql).head? = some c) : isSpaceChar c = false := by
  rw [← enfBody_pyStrip sql] at h
  exact pyStrip_head_not_space h

theorem enfBody_last_not_space {sql : List Char} {c : Char}
    (h : (enfBody sql).getLast? = some c) : isSpaceChar c = false := by
  rw [← enfBody_pyStrip sql] at h
  exact pyStrip_last_not_space h

theorem digit_ne_semi {c : Char} (h : isDigitChar c = true) : c ≠ ';' := by
  intro he
  rw [he] at h
  exact absurd h (by decide)

theorem scan_body_ne_nil {body : List Char} {v : Nat} {vs : List Nat}
    (h : limitScan none body = v :: vs) : body ≠ [] := by
  intro he
  subst he
  rw [limitScan_nil] at h
  exact absurd h (by simp)

/-- Case analysis of `enforce_limit`: `enforce_limit` searches for the
leftmost `LIMIT <integer>` clause of the preprocessed body.  If there
is none, ` LIMIT <max_limit>` is appended before the final semicolon;
if the leftmost clause's integer is within bound the body is left
unchanged; if it exceeds the bound, `re.sub` rewrites **every**
`LIMIT <integer>` clause (not only the offending one) to
`LIMIT <max_limit>`, so that for a non-negative bound all clauses of
the result read exactly `max_limit`. -/
theorem enforce_limit_cases (sql : List Char) (m : Int) :
    (limitScan none (enfBody sql) = [] →
      enforce_limit sql m =
        (enfBody sql ++ (" LIMIT ".data ++ intToChars m)) ++ [';']) ∧
    (∀ v vs, limitScan none (enfBody sql) = v :: vs → (v : Int) ≤ m →
      enforce_limit sql m = enfBody sql ++ [';']) ∧
    (∀ v vs, limitScan none (enfBody sql) = v :: vs → (v : Int) > m →
      enforce_limit sql m = limitSub (intToChars m) none (enfBody sql) ++ [';'] ∧
      (0 ≤ m → limitScan none (enforce_limit sql m) =
        (limitScan none (enfBody sql)).map (fun _ => m.toNat))) := by
  refine ⟨?_, ?_, ?_⟩
  · intro hs
    unfold enforce_limit
    rw [hs]
    rfl
  · intro v vs hs hv
    unfold enforce_limit
    rw [hs]
    simp only [List.head?_cons]
    rw [if_neg (by omega)]
  · intro v vs hs hv
    have hrepl : enforce_limit sql m =
        limitSub (intToChars m) none (enfBody sql) ++ [';'] := by
      unfold enforce_limit
      rw [hs]
      simp only [List.head?_cons]
      rw [if_pos hv]
    refine ⟨hrepl, ?_⟩
    intro hm
    obtain ⟨hdig, hdne⟩ := intToChars_digits hm
    rw [hrepl]
    rw [limitScan_append_semi (limitSub (intToChars m) none (enfBody sql)).length _
      (le_refl _) none]
    rw [limitScan_limitSub hdne hdig (enfBody sql).length (enfBody sql)
      (le_refl _) none none rfl]
    rw [digitsVal_intToChars hm]

/-- C2 (amended, claim form): the three-way case analysis of
`enforce_limit` stated by `enforce_limit_cases`. -/
theorem c2_enforce_limit_cases (sql : List Char) (m : Int) :
    (limitScan none (enfBody sql) = [] →
      enforce_limit sql m =
        (enfBody sql ++ (" LIMIT ".data ++ intToChars m)) ++ [';']) ∧
    (∀ v vs, limitScan none (enfBody sql) = v :: vs → (v : Int) ≤ m →
      enforce_limit sql m = enfBody sql ++ [';']) ∧
    (∀ v vs, limitScan none (enfBody sql) = v :: vs → (v : Int) > m →
      enforce_limit sql m = limitSub (intToChars m) none (enfBody sql) ++ [';'] ∧
      (0 ≤ m → limitScan none (enforce_limit sql m) =
        (limitScan none (enfBody sql)).map (fun _ => m.toNat))) :=
  enforce_limit_cases sql m

/-- Witness for C2: the three branches at concrete inputs. -/
theorem c2_enforce_limit_cases_witness :
    enforce_limit "SELECT 1".data 7 = "SELECT 1 LIMIT 7;".data ∧
    enforce_limit "SELECT 1 LIMIT 5".data 1000 = "SELECT 1 LIMIT 5;".data ∧
    enforce_limit "SELECT 1 LIMIT 5000".data 1000 = "SELECT 1 LIMIT 1000;".data ∧
    limitScan none (enforce_limit "SELECT 1 LIMIT 5000".data 1000) = [1000] := by
  refine ⟨?_, ?_, ?_, ?_⟩
  · rw [(c2_enforce_limit_cases "SELECT 1".data 7).1 (by decide)]
    decide
  · rw [(c2_enforce_limit_cases "SELECT 1 LIMIT 5".data 1000).2.1 5 []
      (by decide) (by decide)]
    decide
  · rw [((c2_enforce_limit_cases "SELECT 1 LIMIT 5000".data 1000).2.2 5000 []
      (by decide) (by decide)).1]
    decide
  · rw [((c2_enforce_limit_cases "SELECT 1 LIMIT 5000".data 1000).2.2 5000 []
      (by decide) (by decide)).2 (by decide)]
    decide

/-- C3 (amended): provided the bound is non-negative, the preprocessed
body contains at most one `LIMIT <integer>` clause, and the body does
not itself end in a semicolon, the output of `enforce_limit` contains
exactly one `LIMIT <integer>` clause, its value is within the bound,
and the output ends with exactly one terminating semicolon. -/
theorem c3_enforce_limit_invariant (sql : List Char) (m : Int) (hm : 0 ≤ m)
    (h1 : (limitScan none (enfBody sql)).length ≤ 1)
    (h2 : (enfBody sql).getLast? ≠ some ';') :
    (limitScan none (enforce_limit sql m)).length = 1 ∧
    (∀ v ∈ limitScan none (enforce_limit sql m), (v : Int) ≤ m) ∧
    (enforce_limit sql m).getLast? = some ';' ∧
    (enforce_limit sql m).dropLast.getLast? ≠ some ';' := by
  obtain ⟨hdig, hdne⟩ := intToChars_digits hm
  obtain ⟨hc1, hc2, hc3⟩ := enforce_limit_cases sql m
  cases hs : limitScan none (enfBody sql) with
  | nil =>
      have hout := hc1 hs
      have hB : enfBody sql ++ (" LIMIT ".data ++ intToChars m) =
          enfBody sql ++ (' ' :: ("LIMIT ".data ++ intToChars m)) := rfl
      have hscanB : limitScan none (enfBody sql ++
          (' ' :: ("LIMIT ".data ++ intToChars m))) = [digitsVal (intToChars m)] :=
        limitScan_append_limit hdne hdig (enfBody sql).length _ (le_refl _) none hs
      have hscanout : limitScan none (enforce_limit sql m) =
          [digitsVal (intToChars m)] := by
        rw [hout, limitScan_append_semi _ _ (le_refl _) none, hB, hscanB]
      refine ⟨by rw [hscanout]; rfl, ?_, ?_, ?_⟩
      · intro v hv
        rw [hscanout] at hv
        simp only [List.mem_singleton] at hv
        rw [hv, digitsVal_intToChars hm]
        omega
      · rw [hout, getLast?_append_right (by simp)]
        rfl
      · rw [hout, List.dropLast_concat]
        rw [hB, getLast?_append_right (by simp),
          getLast?_cons_ne (by intro hx; exact hdne (List.append_eq_nil.mp hx).2),
          getLast?_append_right hdne, getLast?_eq_getLastD hdne]
        intro hcon
        injection hcon with hcon
        exact digit_ne_semi (all_getLastD hdne hdig) hcon
  | cons v vs =>
      have hvs : vs = [] := by
        have := congrArg List.length hs
        simp at this
        cases vs with
        | nil => rfl
        | cons w ws => simp at this; omega
      subst hvs
      by_cases hv : (v : Int) ≤ m
      · have hout := hc2 v [] hs hv
        have hscanout : limitScan none (enforce_limit sql m) = [v] := by
          rw [hout, limitScan_append_semi _ _ (le_refl _) none, hs]
        refine ⟨by rw [hscanout]; rfl, ?_, ?_, ?_⟩
        · intro w hw
          rw [hscanout] at hw
          simp only [List.mem_singleton] at hw
          rw [hw]
          exact hv
        · rw [hout, getLast?_append_right (by simp)]
          rfl
        · rw [hout, List.dropLast_concat]
          exact h2
      · have hout := (hc3 v [] hs (by omega)).1
        have hmap := (hc3 v [] hs (by omega)).2 hm
        have hscanout : limitScan none (enforce_limit sql m) = [m.toNat] := by
          rw [hmap, hs]
          rfl
        refine ⟨by rw [hscanout]; rfl, ?_, ?_, ?_⟩
        · intro w hw
          rw [hscanout] at hw
          simp only [List.mem_singleton] at hw
          rw [hw]
          omega
        · rw [hout, getLast?_append_right (by simp)]
          rfl
        · rw [hout, List.dropLast_concat]
          have hbody := scan_body_ne_nil hs
          rcases limitSub_getLast hdne hdig (enfBody sql).length (enfBody sql)
              (le_refl _) none hbody with hl | ⟨c, hl, hc⟩
          · rw [hl]
            exact h2
          · rw [hl]
            intro hcon
            injection hcon with hcon
            exact digit_ne_semi hc hcon

/-- Witness for C3 at a concrete input. -/
theorem c3_enforce_limit_invariant_witness :
    (limitScan none (enforce_limit "SELECT 1".data 1000)).length = 1 ∧
    (∀ v ∈ limitScan none (enforce_limit "SELECT 1".data 1000), (v : Int) ≤ 1000) ∧
    (enforce_limit "SELECT 1".data 1000).getLast? = some ';' ∧
    (enforce_limit "SELECT 1".data 1000).dropLast.getLast? ≠ some ';' :=
  c3_enforce_limit_invariant "SELECT 1".data 1000 (by decide) (by decide) (by decide)

theorem enfBody_concat_semi {B : List Char} (hBne : B ≠ [])
    (hhead : ∀ c, B.head? = some c → isSpaceChar c = false)
    (hlast : ∀ c, B.getLast? = some c → isSpaceChar c = false) :
    enfBody (B ++ [';']) = B := by
  unfold enfBody
  have hstrip : pyStrip (B ++ [';']) = B ++ [';'] := by
    refine pyStrip_eq_self ?_ ?_
    · intro c hc
      rw [head?_append_left hBne] at hc
      exact hhead c hc
    · intro c hc
      rw [getLast?_append_right (by simp)] at hc
      have : c = ';' := by
        have : (([';'] : List Char)).getLast? = some ';' := rfl
        rw [this] at hc
        injection hc with h
        exact h.symm
      rw [this]
      decide
  rw [hstrip]
  rw [if_pos (by rw [getLast?_append_right (by simp)]; rfl)]
  rw [List.dropLast_concat]
  exact pyStrip_eq_self hhead hlast

/-- C9 (amended): `enforce_limit` is idempotent whenever the bound is
non-negative and the preprocessed body of the input is non-empty. -/
theorem c9_enforce_limit_idempotent (sql : List Char) (m : Int) (hm : 0 ≤ m)
    (hne : enfBody sql ≠ []) :
    enforce_limit (enforce_limit sql m) m = enforce_limit sql m := by
  obtain ⟨hdig, hdne⟩ := intToChars_digits hm
  obtain ⟨hc1, hc2, hc3⟩ := enforce_limit_cases sql m
  obtain ⟨kc1, kc2, kc3⟩ := enforce_limit_cases (enforce_limit sql m) m
  have hhead := fun c (hc : (enfBody sql).head? = some c) => enfBody_head_not_space hc
  have hlast0 := fun c (hc : (enfBody sql).getLast? = some c) =>
    enfBody_last_not_space hc
  cases hs : limitScan none (enfBody sql) with
  | nil =>
      have hout := hc1 hs
      have hBne : enfBody sql ++ (" LIMIT ".data ++ intToChars m) ≠ [] := by
        intro hx
        exact hdne (List.append_eq_nil.mp (List.append_eq_nil.mp hx).2).2
      have hBhead : ∀ c, (enfBody sql ++ (" LIMIT ".data ++ intToChars m)).head? =
          some c → isSpaceChar c = false := by
        intro c hc
        rw [head?_append_left hne] at hc
        exact hhead c hc
      have hBlast : ∀ c, (enfBody sql ++ (" LIMIT ".data ++ intToChars m)).getLast? =
          some c → isSpaceChar c = false := by
        intro c hc
        rw [getLast?_append_right (by
            intro hx
            exact hdne (List.append_eq_nil.mp hx).2),
          getLast?_append_right hdne, getLast?_eq_getLastD hdne] at hc
        injection hc with hc
        rw [← hc]
        exact digit_not_space (all_getLastD hdne hdig)
      have hEB : enfBody (enforce_limit sql m) =
          enfBody sql ++ (" LIMIT ".data ++ intToChars m) := by
        rw [hout]
        exact enfBody_concat_semi hBne hBhead hBlast
      have hscanB : limitScan none (enfBody sql ++ (" LIMIT ".data ++ intToChars m)) =
          [digitsVal (intToChars m)] :=
        limitScan_append_limit hdne hdig (enfBody sql).length _ (le_refl _) none hs
      have hfin := kc2 (digitsVal (intToChars m)) [] (by rw [hEB]; exact hscanB)
        (by rw [digitsVal_intToChars hm]; omega)
      rw [hfin, hEB, hout]
  | cons v vs =>
      by_cases hv : (v : Int) ≤ m
      · have hout := hc2 v vs hs hv
        have hEB : enfBody (enforce_limit sql m) = enfBody sql := by
          rw [hout]
          exact enfBody_concat_semi hne hhead hlast0
        have hfin := kc2 v vs (by rw [hEB]; exact hs) hv
        rw [hfin, hEB, hout]
      · have hout := (hc3 v vs hs (by omega)).1
        have hSne : limitSub (intToChars m) none (enfBody sql) ≠ [] :=
          limitSub_ne_nil hne
        have hShead : ∀ c, (limitSub (intToChars m) none (enfBody sql)).head? =
            some c → isSpaceChar c = false := limitSub_head_not_space hhead
        have hSlast : ∀ c, (limitSub (intToChars m) none (enfBody sql)).getLast? =
            some c → isSpaceChar c = false := by
          intro c hc
          rcases limitSub_getLast hdne hdig (enfBody sql).length (enfBody sql)
              (le_refl _) none hne with hl | ⟨c', hl, hc'⟩
          · rw [hl] at hc
            exact hlast0 c hc
          · rw [hl] at hc
            injection hc with hc
            rw [← hc]
            exact digit_not_space hc'
        have hEB : enfBody (enforce_limit sql m) =
            limitSub (intToChars m) none (enfBody sql) := by
          rw [hout]
          exact enfBody_concat_semi hSne hShead hSlast
        have hscanS : limitScan none (limitSub (intToChars m) none (enfBody sql)) =
            m.toNat :: (vs.map fun _ => m.toNat) := by
          rw [limitScan_limitSub hdne hdig (enfBody sql).length (enfBody sql)
            (le_refl _) none none rfl, hs]
          rw [digitsVal_intToChars hm]
          rfl
        have hfin := kc2 m.toNat (vs.map fun _ => m.toNat)
          (by rw [hEB]; exact hscanS) (by omega)
        rw [hfin, hEB, hout]

/-- Witness for C9 at a concrete input. -/
theorem c9_enforce_limit_idempotent_witness :
    enforce_limit (enforce_limit "SELECT 1 LIMIT 2000".data 1000) 1000 =
      enforce_limit "SELECT 1 LIMIT 2000".data 1000 :=
  c9_enforce_limit_idempotent "SELECT 1 LIMIT 2000".data 1000 (by decide) (by decide)

/-! ## Claim C4: `process_sql_query` -/

/-- `process_sql_query` from `llm_sql_openai.py`.  The `generate_sql`
call performs a network request, which is outside the embedding, so the
function is modelled over its outcome: `none` when `generate_sql`
raised, `some sql` when it returned `sql`.  The `try`/`except` block
turns every failure — a raise, or a generated string failing
`is_safe_select_sql` (which also covers the empty string) — into
`("", False)`; on success it returns `(enforce_limit sql, True)` with
the default bound 1000. -/
def process_sql_query (genResult : Option (List Char)) : List Char × Bool :=
  match genResult with
  | none => ([], false)
  | some sql =>
      if is_safe_select_sql sql then (enforce_limit sql 1000, true)
      else ([], false)

/-- C4: `process_sql_query` never propagates a failure: when generation
raises or the generated SQL is unsafe (in particular empty) it returns
`("", False)`, and on success it returns the limit-enforced SQL paired
with `True`, the generated SQL having passed `is_safe_select_sql`. -/
theorem c4_process_sql_query_boundary (g : Option (List Char)) :
    (g = none → process_sql_query g = ([], false)) ∧
    (∀ sql, g = some sql → is_safe_select_sql sql = false →
      process_sql_query g = ([], false)) ∧
    (∀ sql, g = some sql → is_safe_select_sql sql = true →
      process_sql_query g = (enforce_limit sql 1000, true)) := by
  refine ⟨?_, ?_, ?_⟩
  · intro h
    subst h
    rfl
  · intro sql h hsafe
    subst h
    simp [process_sql_query, hsafe]
  · intro sql h hsafe
    subst h
    simp [process_sql_query, hsafe]

/-- Witness for C4: all three outcomes at concrete inputs. -/
theorem c4_process_sql_query_boundary_witness :
    process_sql_query none = ([], false) ∧
    process_sql_query (some "DROP TABLE sales".data) = ([], false) ∧
    process_sql_query (some "".data) = ([], false) ∧
    process_sql_query (some "SELECT 1".data) =
      (enforce_limit "SELECT 1".data 1000, true) :=
  ⟨(c4_process_sql_query_boundary none).1 rfl,
   (c4_process_sql_query_boundary (some "DROP TABLE sales".data)).2.1 _ rfl (by decide),
   (c4_process_sql_query_boundary (some "".data)).2.1 _ rfl (by decide),
   (c4_process_sql_query_boundary (some "SELECT 1".data)).2.2 _ rfl (by decide)⟩

/-! ## Claims C5 and C6: the fallback resolver -/

/-- The ordered fallback catalog `FALLBACKS` from `fallbacks.py`
(Python dicts preserve insertion order). -/
def FALLBACKS : List (String × String) := [
  ("月毎のカテゴリー別の売り上げ",
   "\n        SELECT month, category, SUM(revenue) AS total_revenue\n        FROM sales\n        GROUP BY 1,2\n        ORDER BY 1,2\n        LIMIT 1000;\n    "),
  ("チャネルごとの売り上げ",
   "\n        SELECT sales_channel, SUM(revenue) AS total_revenue\n        FROM sales\n        GROUP BY 1\n        ORDER BY 1\n        LIMIT 1000;\n    "),
  ("地域ごとの売り上げの合計",
   "\n        SELECT region, SUM(revenue) AS total_revenue\n        FROM sales\n        GROUP BY 1\n        ORDER BY 1\n        LIMIT 1000;\n    "),
  ("カテゴリ別売上",
   "\n        SELECT category, SUM(revenue) AS total_revenue, SUM(units) AS total_units\n        FROM sales\n        GROUP BY 1\n        ORDER BY total_revenue DESC\n        LIMIT 1000;\n    "),
  ("月別売上",
   "\n        SELECT month, SUM(revenue) AS total_revenue, SUM(units) AS total_units\n        FROM sales\n        GROUP BY 1\n        ORDER BY 1\n        LIMIT 1000;\n    "),
  ("顧客セグメント別売上",
   "\n        SELECT customer_segment, SUM(revenue) AS total_revenue\n        FROM sales\n        GROUP BY 1\n        ORDER BY total_revenue DESC\n        LIMIT 1000;\n    "),
  ("全体集計",
   "\n        SELECT \n            COUNT(*) AS total_transactions,\n            SUM(revenue) AS total_revenue,\n            SUM(units) AS total_units,\n            AVG(unit_price) AS avg_unit_price,\n            AVG(revenue) AS avg_transaction_value\n        FROM sales\n        LIMIT 1000;\n    ")
]

/-- The ordered keyword table `FALLBACK_KEYWORDS` from `fallbacks.py`. -/
def FALLBACK_KEYWORDS : List (String × List String) := [
  ("月毎のカテゴリー別の売り上げ", ["月", "month", "カテゴリ", "category", "月別", "月ごと", "カテゴリ別", "カテゴリー別"]),
  ("チャネルごとの売り上げ", ["チャネル", "channel", "販売チャネル", "sales_channel", "online", "store", "オンライン", "店舗"]),
  ("地域ごとの売り上げの合計", ["地域", "region", "地域別", "north", "south", "east", "west", "北", "南", "東", "西"]),
  ("カテゴリ別売上", ["カテゴリ", "category", "商品", "製品", "electronics", "clothing", "groceries"]),
  ("月別売上", ["月", "month", "月別", "月ごと", "時間", "期間", "推移"]),
  ("顧客セグメント別売上", ["顧客", "customer", "セグメント", "segment", "consumer", "corporate", "business"]),
  ("全体集計", ["全体", "total", "合計", "サマリー", "summary", "概要", "統計"])
]

/-- One entry's score: how many of its keywords occur (lower-cased) as
substrings of the lower-cased question. -/
def countKeywordMatches (kws : List String) (ql : List Char) : Nat :=
  (kws.filter fun kw => containsSub (kw.data.map toLowerChar) ql).length

/-- The scoring loop of `find_best_fallback`: fold over the keyword
table keeping the best name and the maximal score, updating only on a
strictly greater score. -/
def bestLoop (ql : List Char) :
    List (String × List String) → Option String → Nat → Option String × Nat
  | [], best, maxM => (best, maxM)
  | (name, kws) :: rest, best, maxM =>
      if countKeywordMatches kws ql > maxM then
        bestLoop ql rest (some name) (countKeywordMatches kws ql)
      else bestLoop ql rest best maxM

/-- Dictionary lookup `FALLBACKS[name]` (never missing on the names the
resolver produces). -/
def lookupFallback (name : String) : String :=
  ((FALLBACKS.find? fun p => p.1 = name).map Prod.snd).getD ""

/-- The final selection of `find_best_fallback`: the general summary
when nothing was selected or the maximal score is zero. -/
def chooseFallbackName (r : Option String × Nat) : String :=
  match r.1 with
  | none => "全体集計"
  | some b => if r.2 = 0 then "全体集計" else b

/-- `find_best_fallback` from `fallbacks.py`: lower-case the question,
score every catalog entry by keyword-substring matches, pick the first
entry with a strictly maximal score (the general summary when all
scores are zero), and return its name with its SQL stripped. -/
def find_best_fallback (question : List Char) : String × List Char :=
  (chooseFallbackName (bestLoop (question.map toLowerChar) FALLBACK_KEYWORDS none 0),
   pyStrip (lookupFallback (chooseFallbackName
     (bestLoop (question.map toLowerChar) FALLBACK_KEYWORDS none 0))).data)

example : (find_best_fallback "asdkjasd".data).1 = "全体集計" := by decide
example : is_safe_select_sql (find_best_fallback "asdkjasd".data).2 = true := by decide

set_option maxRecDepth 100000

theorem bestLoop_mem (ql : List Char) :
    ∀ (entries : List (String × List String)) (b0 : Option String) (m0 : Nat),
      (bestLoop ql entries b0 m0).1 = b0 ∨
      ∃ p ∈ entries, (bestLoop ql entries b0 m0).1 = some p.1 := by
  intro entries
  induction entries with
  | nil => intro b0 m0; exact Or.inl rfl
  | cons e rest ih =>
      intro b0 m0
      obtain ⟨name, kws⟩ := e
      unfold bestLoop
      split
      · rcases ih (some name) (countKeywordMatches kws ql) with h | ⟨p, hp, h⟩
        · exact Or.inr ⟨(name, kws), by simp, h⟩
        · exact Or.inr ⟨p, by simp [hp], h⟩
      · rcases ih b0 m0 with h | ⟨p, hp, h⟩
        · exact Or.inl h
        · exact Or.inr ⟨p, by simp [hp], h⟩

/-- C5: for every question, `find_best_fallback` returns the name of a
catalog entry together with that entry's SQL stripped of surrounding
whitespace, and the returned SQL passes `is_safe_select_sql`. -/
theorem c5_find_best_fallback_safe (q : List Char) :
    ∃ p ∈ FALLBACKS, (find_best_fallback q).1 = p.1 ∧
      (find_best_fallback q).2 = pyStrip p.2.data ∧
      is_safe_select_sql (find_best_fallback q).2 = true := by
  have hproj : (find_best_fallback q).2 =
      pyStrip (lookupFallback ((find_best_fallback q).1)).data := rfl
  have hmem : (find_best_fallback q).1 = "全体集計" ∨
      ∃ p ∈ FALLBACK_KEYWORDS, (find_best_fallback q).1 = p.1 := by
    rcases bestLoop_mem (q.map toLowerChar) FALLBACK_KEYWORDS none 0 with
      h | ⟨p, hp, h⟩
    · left
      show chooseFallbackName _ = _
      simp [chooseFallbackName, h]
    · by_cases hz : (bestLoop (q.map toLowerChar) FALLBACK_KEYWORDS none 0).2 = 0
      · left
        show chooseFallbackName _ = _
        simp [chooseFallbackName, h, hz]
      · right
        refine ⟨p, hp, ?_⟩
        show chooseFallbackName _ = _
        simp [chooseFallbackName, h, hz]
  have haux2 : ∀ p ∈ FALLBACK_KEYWORDS,
      is_safe_select_sql (pyStrip (lookupFallback p.1).data) = true := by decide
  have haux1 : ∀ p ∈ FALLBACK_KEYWORDS,
      (p.1, lookupFallback p.1) ∈ FALLBACKS := by decide
  rcases hmem with h | ⟨p, hp, h⟩
  · refine ⟨("全体集計", lookupFallback "全体集計"), by decide, h, ?_, ?_⟩
    · rw [hproj, h]
    · rw [hproj, h]
      decide
  · refine ⟨(p.1, lookupFallback p.1), haux1 p hp, h, ?_, ?_⟩
    · rw [hproj, h]
    · rw [hproj, h]
      exact haux2 p hp

/-- The maximal keyword score over a list of catalog entries. -/
def maxScore (ql : List Char) (entries : List (String × List String)) : Nat :=
  entries.foldr (fun e acc => max (countKeywordMatches e.2 ql) acc) 0

theorem bestLoop_spec (ql : List Char) :
    ∀ (entries : List (String × List String)) (b0 : Option String) (m0 : Nat),
    ((bestLoop ql entries b0 m0).2 = max (maxScore ql entries) m0) ∧
    (maxScore ql entries ≤ m0 → bestLoop ql entries b0 m0 = (b0, m0)) ∧
    (m0 < maxScore ql entries →
      ∃ e, entries.find? (fun e =>
          countKeywordMatches e.2 ql == maxScore ql entries) = some e ∧
        (bestLoop ql entries b0 m0).1 = some e.1) := by
  intro entries
  induction entries with
  | nil =>
      intro b0 m0
      refine ⟨by simp [bestLoop, maxScore], fun _ => rfl, fun h => absurd h (by simp [maxScore])⟩
  | cons e rest ih =>
      intro b0 m0
      obtain ⟨name, kws⟩ := e
      have hM : maxScore ql ((name, kws) :: rest) =
          max (countKeywordMatches kws ql) (maxScore ql rest) := rfl
      by_cases hgt : countKeywordMatches kws ql > m0
      · have hloop : bestLoop ql ((name, kws) :: rest) b0 m0 =
            bestLoop ql rest (some name) (countKeywordMatches kws ql) := by
          rw [bestLoop, if_pos hgt]
        obtain ⟨ih1, ih2, ih3⟩ := ih (some name) (countKeywordMatches kws ql)
        refine ⟨?_, ?_, ?_⟩
        · rw [hloop, ih1, hM]
          omega
        · intro hle
          rw [hM] at hle
          omega
        · intro _
          rw [hM]
          by_cases hcase : maxScore ql rest ≤ countKeywordMatches kws ql
          · have hMax : max (countKeywordMatches kws ql) (maxScore ql rest) =
                countKeywordMatches kws ql := by omega
            refine ⟨(name, kws), ?_, ?_⟩
            · rw [hMax]
              apply List.find?_cons_of_pos
              simp
            · rw [hloop, (ih2 hcase)]
          · have hMax : max (countKeywordMatches kws ql) (maxScore ql rest) =
                maxScore ql rest := by omega
            obtain ⟨e', hf, hb⟩ := ih3 (by omega)
            refine ⟨e', ?_, ?_⟩
            · rw [hMax]
              rw [List.find?_cons_of_neg]
              · exact hf
              · simp
                omega
            · rw [hloop]
              exact hb
      · have hloop : bestLoop ql ((name, kws) :: rest) b0 m0 =
            bestLoop ql rest b0 m0 := by
          rw [bestLoop, if_neg hgt]
        obtain ⟨ih1, ih2, ih3⟩ := ih b0 m0
        refine ⟨?_, ?_, ?_⟩
        · rw [hloop, ih1, hM]
          omega
        · intro hle
          rw [hM] at hle
          rw [hloop]
          exact ih2 (by omega)
        · intro hlt
          rw [hM] at hlt
          have hMrest : m0 < maxScore ql rest := by omega
          obtain ⟨e', hf, hb⟩ := ih3 hMrest
          have hMax : max (countKeywordMatches kws ql) (maxScore ql rest) =
              maxScore ql rest := by omega
          refine ⟨e', ?_, ?_⟩
          · rw [hM, hMax]
            rw [List.find?_cons_of_neg]
            · exact hf
            · simp
              omega
          · rw [hloop]
            exact hb

/-- C6: `find_best_fallback` selects the first catalog entry (in
declaration order) whose keyword-match count equals the maximal count,
and returns the default aggregate-summary entry `全体集計` when the
maximal count is zero. -/
theorem c6_find_best_fallback_selection (q : List Char) :
    (maxScore (q.map toLowerChar) FALLBACK_KEYWORDS = 0 →
      (find_best_fallback q).1 = "全体集計") ∧
    (0 < maxScore (q.map toLowerChar) FALLBACK_KEYWORDS →
      ∀ e, FALLBACK_KEYWORDS.find? (fun e =>
          countKeywordMatches e.2 (q.map toLowerChar) ==
            maxScore (q.map toLowerChar) FALLBACK_KEYWORDS) = some e →
        (find_best_fallback q).1 = e.1) := by
  obtain ⟨h1, h2, h3⟩ := bestLoop_spec (q.map toLowerChar) FALLBACK_KEYWORDS none 0
  constructor
  · intro hz
    have hres := h2 (by omega)
    show chooseFallbackName _ = _
    rw [hres]
    rfl
  · intro hpos e hfind
    obtain ⟨e', hf', hb'⟩ := h3 (by omega)
    have he : e' = e := Option.some.inj (hf'.symm.trans hfind)
    subst he
    show chooseFallbackName _ = _
    rcases hr : bestLoop (q.map toLowerChar) FALLBACK_KEYWORDS none 0 with ⟨rb, rm⟩
    rw [hr] at hb' h1
    simp only at hb' h1
    subst hb'
    subst h1
    simp only [chooseFallbackName]
    rw [if_neg (by omega)]

/-- Witness for C6: the default branch on a question with no keyword
matches, and the first-maximal branch on a month-by-category question. -/
theorem c6_find_best_fallback_selection_witness :
    (find_best_fallback "asdkjasd".data).1 = "全体集計" ∧
    (find_best_fallback "月ごとのカテゴリ別売上を見せて".data).1 =
      "月毎のカテゴリー別の売り上げ" := by
  constructor
  · exact (c6_find_best_fallback_selection "asdkjasd".data).1 (by decide)
  · exact (c6_find_best_fallback_selection "月ごとのカテゴリ別売上を見せて".data).2
      (by decide)
      ("月毎のカテゴリー別の売り上げ",
        ["月", "month", "カテゴリ", "category", "月別", "月ごと", "カテゴリ別",
         "カテゴリー別"])
      (by decide)

/-! ## Claims C7 and C8: the chart-type heuristic -/

/-- The pandas dtype of a result column as far as `detect_chart_type`
distinguishes dtypes: `number` covers everything selected by
`select_dtypes(include=['number'])`, `object` and `category` are the
dtypes selected by `select_dtypes(include=['object', 'category'])`,
`datetime` is `datetime64[ns]`, and `other` covers the rest. -/
inductive Dtype
  | number
  | object
  | category
  | datetime
  | other
deriving DecidableEq

/-- A result-table column: its name and dtype. -/
structure Col where
  name : String
  dtype : Dtype
deriving DecidableEq

/-- A result table as `detect_chart_type` observes it: the column
schema and the row count `len(df)`. -/
structure Table where
  cols : List Col
  nrows : Nat
deriving DecidableEq

/-- pandas `df.empty`: true when either axis has length zero. -/
def dfEmpty (t : Table) : Bool := t.nrows = 0 || t.cols.isEmpty

/-- `numeric_cols = df.select_dtypes(include=['number']).columns`. -/
def numericCols (t : Table) : List Col :=
  t.cols.filter fun c => c.dtype = Dtype.number

/-- `categorical_cols = df.select_dtypes(include=['object', 'category']).columns`. -/
def categoricalCols (t : Table) : List Col :=
  t.cols.filter fun c => c.dtype = Dtype.object ∨ c.dtype = Dtype.category

/-- The `time_cols` loop of `detect_chart_type`: scan the categorical
columns, keeping those named `month`/`date` (lower-cased) or of dtype
`datetime64[ns]` (a check that can never fire on an object/category
column, but is embedded faithfully). -/
def timeCols (t : Table) : List Col :=
  (categoricalCols t).filter fun c =>
    (c.name.data.map toLowerChar = "month".data ∨
      c.name.data.map toLowerChar = "date".data) ∨ c.dtype = Dtype.datetime

/-- `categorical_cols` after removing the time columns (by name, as the
code compares column names). -/
def categoricalCols2 (t : Table) : List Col :=
  (categoricalCols t).filter fun c => ¬((timeCols t).map Col.name).contains c.name

/-- `detect_chart_type` from `viz.py`. -/
def detect_chart_type (t : Table) : String :=
  if dfEmpty t then "none"
  else if (numericCols t).length ≥ 1 then
    if (timeCols t).length ≥ 1 then "line"
    else if (categoricalCols2 t).length ≥ 1 then
      if (categoricalCols2 t).length = 1 ∧ t.nrows ≤ 10 then "pie" else "bar"
    else if (numericCols t).length ≥ 2 then "scatter"
    else "bar"
  else "bar"

example : detect_chart_type ⟨[⟨"region", Dtype.object⟩, ⟨"revenue", Dtype.number⟩],
  5⟩ = "pie" := by decide
example : detect_chart_type ⟨[⟨"region", Dtype.object⟩, ⟨"revenue", Dtype.number⟩],
  11⟩ = "bar" := by decide
example : detect_chart_type ⟨[⟨"month", Dtype.object⟩, ⟨"revenue", Dtype.number⟩],
  12⟩ = "line" := by decide
example : detect_chart_type ⟨[⟨"units", Dtype.number⟩, ⟨"revenue", Dtype.number⟩],
  5⟩ = "scatter" := by decide
example : detect_chart_type ⟨[], 0⟩ = "none" := by decide

/-- C7, counterexample to the claim as stated: this table has at least
one numeric column, exactly one non-temporal categorical column
(`region`) and at most 10 rows, so the claim requires `pie`, but the
code's temporal rule fires first on the `month` column and yields
`line`. -/
theorem c7_counterexample :
    1 ≤ (numericCols ⟨[⟨"month", Dtype.object⟩, ⟨"region", Dtype.object⟩,
      ⟨"revenue", Dtype.number⟩], 3⟩).length ∧
    (categoricalCols2 ⟨[⟨"month", Dtype.object⟩, ⟨"region", Dtype.object⟩,
      ⟨"revenue", Dtype.number⟩], 3⟩).length = 1 ∧
    (⟨[⟨"month", Dtype.object⟩, ⟨"region", Dtype.object⟩,
      ⟨"revenue", Dtype.number⟩], 3⟩ : Table).nrows ≤ 10 ∧
    detect_chart_type ⟨[⟨"month", Dtype.object⟩, ⟨"region", Dtype.object⟩,
      ⟨"revenue", Dtype.number⟩], 3⟩ = "line" ∧
    ("line" : String) ≠ "pie" := by decide

/-- C7 (amended): the ordered decision rules of `detect_chart_type`,
with the temporal rule taking precedence: an empty table yields `none`;
with at least one numeric column and a temporal column, `line`; with at
least one numeric column, no temporal column, exactly one remaining
categorical column and at most 10 rows, `pie`, and with 11 or more
rows, `bar`; with two or more remaining categorical columns, `bar`;
with at least two numeric columns and no categorical or temporal
column, `scatter`; any remaining case yields `bar`. -/
theorem c7_detect_chart_type_rules (t : Table) :
    (dfEmpty t = true → detect_chart_type t = "none") ∧
    (dfEmpty t = false → 1 ≤ (numericCols t).length → 1 ≤ (timeCols t).length →
      detect_chart_type t = "line") ∧
    (dfEmpty t = false → 1 ≤ (numericCols t).length → (timeCols t).length = 0 →
      (categoricalCols2 t).length = 1 → t.nrows ≤ 10 →
      detect_chart_type t = "pie") ∧
    (dfEmpty t = false → 1 ≤ (numericCols t).length → (timeCols t).length = 0 →
      (categoricalCols2 t).length = 1 → 11 ≤ t.nrows →
      detect_chart_type t = "bar") ∧
    (dfEmpty t = false → 1 ≤ (numericCols t).length → (timeCols t).length = 0 →
      2 ≤ (categoricalCols2 t).length → detect_chart_type t = "bar") ∧
    (dfEmpty t = false → 2 ≤ (numericCols t).length → (timeCols t).length = 0 →
      (categoricalCols2 t).length = 0 → detect_chart_type t = "scatter") ∧
    (dfEmpty t = false → (numericCols t).length = 0 → detect_chart_type t = "bar") ∧
    (dfEmpty t = false → (numericCols t).length = 1 → (timeCols t).length = 0 →
      (categoricalCols2 t).length = 0 → detect_chart_type t = "bar") := by
  refine ⟨?_, ?_, ?_, ?_, ?_, ?_, ?_, ?_⟩
  · intro he
    unfold detect_chart_type
    rw [if_pos he]
  · intro he hn ht
    unfold detect_chart_type
    rw [if_neg (by simp [he]), if_pos hn, if_pos ht]
  · intro he hn ht hc hr
    unfold detect_chart_type
    rw [if_neg (by simp [he]), if_pos hn, if_neg (by omega), if_pos (by omega),
      if_pos ⟨hc, hr⟩]
  · intro he hn ht hc hr
    unfold detect_chart_type
    rw [if_neg (by simp [he]), if_pos hn, if_neg (by omega), if_pos (by omega),
      if_neg (by rintro ⟨-, h10⟩; omega)]
  · intro he hn ht hc
    unfold detect_chart_type
    rw [if_neg (by simp [he]), if_pos hn, if_neg (by omega), if_pos (by omega),
      if_neg (by rintro ⟨h1, -⟩; omega)]
  · intro he hn ht hc
    unfold detect_chart_type
    rw [if_neg (by simp [he]), if_pos (by omega), if_neg (by omega),
      if_neg (by omega), if_pos hn]
  · intro he hn
    unfold detect_chart_type
    rw [if_neg (by simp [he]), if_neg (by omega)]
  · intro he hn ht hc
    unfold detect_chart_type
    rw [if_neg (by simp [he]), if_pos (by omega), if_neg (by omega),
      if_neg (by omega), if_neg (by omega)]

/-- Witness for C7: every branch at a concrete table. -/
theorem c7_detect_chart_type_rules_witness :
    detect_chart_type ⟨[], 0⟩ = "none" ∧
    detect_chart_type ⟨[⟨"month", Dtype.object⟩, ⟨"revenue", Dtype.number⟩], 12⟩ =
      "line" ∧
    detect_chart_type ⟨[⟨"region", Dtype.object⟩, ⟨"revenue", Dtype.number⟩], 5⟩ =
      "pie" ∧
    detect_chart_type ⟨[⟨"region", Dtype.object⟩, ⟨"revenue", Dtype.number⟩], 11⟩ =
      "bar" ∧
    detect_chart_type ⟨[⟨"region", Dtype.object⟩, ⟨"city", Dtype.object⟩,
      ⟨"revenue", Dtype.number⟩], 5⟩ = "bar" ∧
    detect_chart_type ⟨[⟨"units", Dtype.number⟩, ⟨"revenue", Dtype.number⟩], 5⟩ =
      "scatter" ∧
    detect_chart_type ⟨[⟨"region", Dtype.object⟩], 3⟩ = "bar" ∧
    detect_chart_type ⟨[⟨"revenue", Dtype.number⟩], 3⟩ = "bar" :=
  ⟨(c7_detect_chart_type_rules _).1 (by decide),
   (c7_detect_chart_type_rules _).2.1 (by decide) (by decide) (by decide),
   (c7_detect_chart_type_rules _).2.2.1 (by decide) (by decide) (by decide)
     (by decide) (by decide),
   (c7_detect_chart_type_rules _).2.2.2.1 (by decide) (by decide) (by decide)
     (by decide) (by decide),
   (c7_detect_chart_type_rules _).2.2.2.2.1 (by decide) (by decide) (by decide)
     (by decide),
   (c7_detect_chart_type_rules _).2.2.2.2.2.1 (by decide) (by decide) (by decide)
     (by decide),
   (c7_detect_chart_type_rules _).2.2.2.2.2.2.1 (by decide) (by decide),
   (c7_detect_chart_type_rules _).2.2.2.2.2.2.2 (by decide) (by decide) (by decide)
     (by decide)⟩

/-- C8, counterexample to the claim as stated: a non-empty table with a
numeric column and a `datetime64[ns]`-typed column named `ts` should
yield `line` under the claim (a column of date-like type is temporal),
but the code only scans object/category columns for temporal ones, so
the datetime column is invisible and the result is `bar`. -/
theorem c8_counterexample :
    dfEmpty ⟨[⟨"ts", Dtype.datetime⟩, ⟨"revenue", Dtype.number⟩], 3⟩ = false ∧
    1 ≤ (numericCols ⟨[⟨"ts", Dtype.datetime⟩, ⟨"revenue", Dtype.number⟩],
      3⟩).length ∧
    detect_chart_type ⟨[⟨"ts", Dtype.datetime⟩, ⟨"revenue", Dtype.number⟩], 3⟩ =
      "bar" ∧
    ("bar" : String) ≠ "line" := by decide

/-- C8 (amended): for every non-empty table with at least one numeric
column, if some object- or category-dtyped column has the lower-cased
name `month` or `date`, then `detect_chart_type` returns `line`.  (The
code's `datetime64[ns]` test runs only over object/category columns,
where it can never hold, so genuinely datetime-typed columns do not
trigger the temporal rule.) -/
theorem c8_detect_line (t : Table) (he : dfEmpty t = false)
    (hn : 1 ≤ (numericCols t).length)
    (hc : ∃ c ∈ t.cols, (c.dtype = Dtype.object ∨ c.dtype = Dtype.category) ∧
      (c.name.data.map toLowerChar = "month".data ∨
        c.name.data.map toLowerChar = "date".data)) :
    detect_chart_type t = "line" := by
  obtain ⟨c, hmem, hdt, hname⟩ := hc
  have hcc : c ∈ categoricalCols t := by
    rw [categoricalCols, List.mem_filter]
    exact ⟨hmem, by rcases hdt with h | h <;> simp [h]⟩
  have htc : c ∈ timeCols t := by
    rw [timeCols, List.mem_filter]
    exact ⟨hcc, by rcases hname with h | h <;> simp [h]⟩
  have hlen : 1 ≤ (timeCols t).length := List.length_pos_of_mem htc
  unfold detect_chart_type
  rw [if_neg (by simp [he]), if_pos hn, if_pos hlen]

/-- Witness for C8 at a concrete table. -/
theorem c8_detect_line_witness :
    detect_chart_type ⟨[⟨"month", Dtype.object⟩, ⟨"revenue", Dtype.number⟩], 12⟩ =
      "line" :=
  c8_detect_line _ (by decide) (by decide)
    ⟨⟨"month", Dtype.object⟩, by decide, by decide, by decide⟩

/-! ## Claim C10: `enforce_limit` versus `is_safe_select_sql`

The analysis proceeds on the token decomposition of the normalised
text: `' '.join(s.split()).upper()` is the space-join of the
upper-cased whitespace tokens of `s`, a denylisted keyword occurs
space-padded in the join exactly when it *is* one of the tokens, and
every rewriting performed by `enforce_limit` changes tokens only in
ways a denylisted keyword cannot survive. -/

theorem nospace_ne_blank {c : Char} (h : isSpaceChar c = false) : c ≠ ' ' := by
  intro he
  rw [he] at h
  exact absurd h (by decide)

theorem mem_of_getLast?_char {l : List Char} {c : Char}
    (h : l.getLast? = some c) : c ∈ l := by
  induction l with
  | nil => exact absurd h (by simp)
  | cons a t ih =>
      by_cases ht : t = []
      · subst ht
        simp only [List.getLast?_singleton, Option.some.injEq] at h
        simp [h]
      · rw [getLast?_cons_ne ht] at h
        exact List.mem_cons_of_mem a (ih h)

theorem pySplit_dropWhile (s : List Char) :
    pySplit s = pySplit (s.dropWhile isSpaceChar) := by
  induction s with
  | nil => rfl
  | cons c rest ih =>
      by_cases hc : isSpaceChar c = true
      · show pySplitAux (c :: rest) [] = _
        rw [List.dropWhile_cons_of_pos hc]
        simp only [pySplitAux, hc, if_pos, List.isEmpty_nil, if_true]
        exact ih
      · rw [List.dropWhile_cons_of_neg (by simpa using hc)]

theorem pySplitAux_allspace_pre : ∀ (w : List Char),
    (∀ c ∈ w, isSpaceChar c = true) → ∀ (rest : List Char),
    pySplitAux (w ++ rest) [] = pySplitAux rest [] := by
  intro w
  induction w with
  | nil => intro _ rest; rfl
  | cons x w ih =>
      intro hall rest
      have hx : isSpaceChar x = true := hall x (by simp)
      rw [List.cons_append]
      simp only [pySplitAux, hx, if_pos, List.isEmpty_nil, if_true]
      exact ih (fun c hc => hall c (by simp [hc])) rest

theorem pySplitAux_append_allspace {w : List Char}
    (hall : ∀ c ∈ w, isSpaceChar c = true) :
    ∀ (X acc : List Char), pySplitAux (X ++ w) acc = pySplitAux X acc := by
  intro X
  induction X with
  | nil =>
      intro acc
      cases w with
      | nil => rfl
      | cons x w' =>
          have hx : isSpaceChar x = true := hall x (by simp)
          rw [List.nil_append]
          simp only [pySplitAux, hx, if_pos]
          cases acc with
          | nil =>
              simp only [List.isEmpty_nil, if_true]
              have := pySplitAux_allspace_pre w'
                (fun c hc => hall c (by simp [hc])) []
              rw [List.append_nil] at this
              rw [this]
              rfl
          | cons a as =>
              simp only [List.isEmpty_cons, Bool.false_eq_true, if_false]
              have := pySplitAux_allspace_pre w'
                (fun c hc => hall c (by simp [hc])) []
              rw [List.append_nil] at this
              rw [this]
              rfl
  | cons x X ih =>
      intro acc
      rw [List.cons_append]
      by_cases hx : isSpaceChar x = true
      · simp only [pySplitAux, hx, if_pos]
        cases acc with
        | nil => simp only [List.isEmpty_nil, if_true]; exact ih []
        | cons a as =>
            simp only [List.isEmpty_cons, Bool.false_eq_true, if_false]
            rw [ih []]
      · simp only [pySplitAux, hx, if_neg, Bool.false_eq_true]
        exact ih (x :: acc)

theorem pyStrip_decomp (l : List Char) :
    ∃ w, l.dropWhile isSpaceChar = pyStrip l ++ w ∧
      ∀ c ∈ w, isSpaceChar c = true := by
  refine ⟨((l.dropWhile isSpaceChar).reverse.takeWhile isSpaceChar).reverse,
    ?_, ?_⟩
  · have h : (l.dropWhile isSpaceChar).reverse.takeWhile isSpaceChar ++
        (l.dropWhile isSpaceChar).reverse.dropWhile isSpaceChar =
        (l.dropWhile isSpaceChar).reverse := by
      rw [List.takeWhile_append_dropWhile]
    have h2 := congrArg List.reverse h
    rw [List.reverse_append, List.reverse_reverse] at h2
    exact h2.symm
  · intro c hc
    rw [List.mem_reverse] at hc
    have := all_takeWhile isSpaceChar (l.dropWhile isSpaceChar).reverse
    rw [List.all_eq_true] at this
    exact this c hc

theorem pySplit_pyStrip (l : List Char) : pySplit (pyStrip l) = pySplit l := by
  obtain ⟨w, hw, hall⟩ := pyStrip_decomp l
  rw [pySplit_dropWhile l, hw]
  exact (pySplitAux_append_allspace hall (pyStrip l) []).symm

theorem pySplitAux_push {w : List Char}
    (h : ∀ c ∈ w, isSpaceChar c = false) :
    ∀ (rest acc : List Char),
      pySplitAux (w ++ rest) acc = pySplitAux rest (w.reverse ++ acc) := by
  induction w with
  | nil => intro rest acc; rfl
  | cons x w ih =>
      intro rest acc
      have hx : isSpaceChar x = false := h x (by simp)
      rw [List.cons_append]
      simp only [pySplitAux, hx, Bool.false_eq_true, if_false]
      rw [ih (fun c hc => h c (by simp [hc])) rest (x :: acc)]
      rw [List.reverse_cons, List.append_assoc, List.singleton_append]

theorem pySplitAux_sep : ∀ (X Y acc : List Char),
    pySplitAux (X ++ ' ' :: Y) acc =
      pySplitAux X acc ++ pySplitAux Y [] := by
  intro X
  induction X with
  | nil =>
      intro Y acc
      rw [List.nil_append]
      simp only [pySplitAux]
      rw [if_pos (by decide)]
      cases acc with
      | nil => simp
      | cons a as => simp
  | cons x X ih =>
      intro Y acc
      rw [List.cons_append]
      by_cases hx : isSpaceChar x = true
      · simp only [pySplitAux, hx, if_pos]
        cases acc with
        | nil =>
            simp only [List.isEmpty_nil, if_true]
            exact ih Y []
        | cons a as =>
            simp only [List.isEmpty_cons, Bool.false_eq_true, if_false]
            rw [ih Y [], List.cons_append]
      · simp only [pySplitAux, hx, Bool.false_eq_true, if_false]
        exact ih Y (x :: acc)

theorem pySplit_sep (X Y : List Char) :
    pySplit (X ++ ' ' :: Y) = pySplit X ++ pySplit Y :=
  pySplitAux_sep X Y []

theorem pySplit_nospace_single {w : List Char} (hw : w ≠ [])
    (h : ∀ c ∈ w, isSpaceChar c = false) : pySplit w = [w] := by
  have := pySplitAux_push h [] []
  rw [List.append_nil, List.append_nil] at this
  show pySplitAux w [] = [w]
  rw [this]
  simp only [pySplitAux]
  rw [if_neg (by simpa using hw)]
  rw [List.reverse_reverse]

theorem pySplitAux_ne_nil : ∀ (X acc : List Char),
    ((∃ x ∈ X, isSpaceChar x = false) ∨ acc ≠ []) →
    pySplitAux X acc ≠ [] := by
  intro X
  induction X with
  | nil =>
      intro acc h
      rcases h with ⟨x, hx, -⟩ | h
      · exact absurd hx (by simp)
      · simp only [pySplitAux]
        rw [if_neg (by simpa using h)]
        simp
  | cons x X ih =>
      intro acc h
      by_cases hx : isSpaceChar x = true
      · simp only [pySplitAux, hx, if_pos]
        cases acc with
        | nil =>
            simp only [List.isEmpty_nil, if_true]
            apply ih []
            left
            rcases h with ⟨y, hy, hyn⟩ | h
            · rcases List.mem_cons.mp hy with rfl | hy'
              · rw [hx] at hyn; exact absurd hyn (by simp)
              · exact ⟨y, hy', hyn⟩
            · exact absurd rfl h
        | cons a as =>
            simp only [List.isEmpty_cons, Bool.false_eq_true, if_false]
            simp
      · simp only [pySplitAux, hx, Bool.false_eq_true, if_false]
        exact ih (x :: acc) (Or.inr (by simp))

theorem tok_getLastD_cons {a : List Char} {L : List (List Char)} (h : L ≠ []) :
    (a :: L).getLastD [] = L.getLastD [] := by
  cases L with
  | nil => exact absurd rfl h
  | cons b t => rfl

theorem tok_dropLast_cons {a : List Char} {L : List (List Char)} (h : L ≠ []) :
    (a :: L).dropLast = a :: L.dropLast := by
  cases L with
  | nil => exact absurd rfl h
  | cons b t => rfl

theorem pySplitAux_snoc {c : Char} (hc : isSpaceChar c = false) :
    ∀ (X : List Char),
      (∀ e, X.getLast? = some e → isSpaceChar e = false) →
      ∀ (acc : List Char),
      pySplitAux (X ++ [c]) acc =
        (pySplitAux X acc).dropLast ++
          [(pySplitAux X acc).getLastD [] ++ [c]] := by
  intro X
  induction X with
  | nil =>
      intro _ acc
      rw [List.nil_append]
      simp only [pySplitAux, hc, Bool.false_eq_true, if_false]
      cases acc with
      | nil => simp [pySplitAux]
      | cons a as =>
          rw [if_neg (by simp), if_neg (by simp)]
          simp [List.reverse_cons]
  | cons x X ih =>
      intro hlast acc
      by_cases hX : X = []
      · subst hX
        have hx : isSpaceChar x = false := hlast x rfl
        rw [List.cons_append, List.nil_append]
        simp only [pySplitAux, hx, hc, Bool.false_eq_true, if_false]
        rw [if_neg (by simp), if_neg (by simp)]
        simp [List.reverse_cons, List.append_assoc]
      · have hlast' : ∀ e, X.getLast? = some e → isSpaceChar e = false := by
          intro e he
          apply hlast
          rw [getLast?_cons_ne hX]
          exact he
        rw [List.cons_append]
        by_cases hx : isSpaceChar x = true
        · have hXw : ∃ y ∈ X, isSpaceChar y = false := by
            obtain ⟨e, he⟩ : ∃ e, X.getLast? = some e := by
              cases hg : X.getLast? with
              | none => exact absurd (List.getLast?_eq_none_iff.mp hg) hX
              | some e => exact ⟨e, rfl⟩
            exact ⟨e, mem_of_getLast?_char he, hlast' e he⟩
          have hLne : pySplitAux X [] ≠ [] := pySplitAux_ne_nil X [] (Or.inl hXw)
          simp only [pySplitAux, hx, if_pos]
          cases acc with
          | nil =>
              simp only [List.isEmpty_nil, if_true]
              exact ih hlast' []
          | cons a as =>
              simp only [List.isEmpty_cons, Bool.false_eq_true, if_false]
              rw [ih hlast' []]
              rw [tok_dropLast_cons hLne, tok_getLastD_cons hLne]
              simp
        · simp only [pySplitAux, hx, Bool.false_eq_true, if_false]
          exact ih hlast' (x :: acc)

theorem pySplit_snoc {c : Char} (hc : isSpaceChar c = false) {X : List Char}
    (hlast : ∀ e, X.getLast? = some e → isSpaceChar e = false) :
    pySplit (X ++ [c]) =
      (pySplit X).dropLast ++ [(pySplit X).getLastD [] ++ [c]] :=
  pySplitAux_snoc hc X hlast []

theorem pySplitAux_no_space : ∀ (X acc : List Char),
    (∀ c ∈ acc, isSpaceChar c = false) →
    ∀ t ∈ pySplitAux X acc, ∀ c ∈ t, isSpaceChar c = false := by
  intro X
  induction X with
  | nil =>
      intro acc hacc t ht c hct
      simp only [pySplitAux] at ht
      split at ht
      · exact absurd ht (by simp)
      · rcases List.mem_singleton.mp ht with rfl
        exact hacc c (List.mem_reverse.mp hct)
  | cons x X ih =>
      intro acc hacc t ht c hct
      by_cases hx : isSpaceChar x = true
      · simp only [pySplitAux, hx, if_pos] at ht
        split at ht
        · exact ih [] (by simp) t ht c hct
        · rcases List.mem_cons.mp ht with rfl | ht'
          · exact hacc c (List.mem_reverse.mp hct)
          · exact ih [] (by simp) t ht' c hct
      · simp only [pySplitAux, hx, Bool.false_eq_true, if_false] at ht
        refine ih (x :: acc) ?_ t ht c hct
        intro y hy
        rcases List.mem_cons.mp hy with rfl | hy'
        · simpa using hx
        · exact hacc y hy'

theorem pySplit_no_space {s t : List Char} (ht : t ∈ pySplit s) :
    ∀ c ∈ t, isSpaceChar c = false :=
  pySplitAux_no_space s [] (by simp) t ht

/-- Space-join with one trailing separator, the shape on which
occurrences of a padded keyword are analysed. -/
def catTok : List (List Char) → List Char
  | [] => []
  | t :: ts => t ++ ' ' :: catTok ts

theorem joinSpace_cons {t : List Char} {ts : List (List Char)} (h : ts ≠ []) :
    joinSpace (t :: ts) = t ++ ' ' :: joinSpace ts := by
  cases ts with
  | nil => exact absurd rfl h
  | cons a b => rfl

theorem joinSpace_catTok : ∀ (ts : List (List Char)), ts ≠ [] →
    joinSpace ts ++ [' '] = catTok ts := by
  intro ts
  induction ts with
  | nil => intro h; exact absurd rfl h
  | cons t ts ih =>
      intro _
      cases hts : ts with
      | nil => rfl
      | cons a b =>
          rw [← hts, joinSpace_cons (by simp [hts]), catTok,
            ← ih (by simp [hts]), List.append_assoc]
          rfl

theorem firstSep : ∀ (t kw X Y : List Char),
    (∀ c ∈ t, isSpaceChar c = false) → (∀ c ∈ kw, isSpaceChar c = false) →
    t ++ ' ' :: X = kw ++ ' ' :: Y → t = kw ∧ X = Y := by
  intro t
  induction t with
  | nil =>
      intro kw X Y _ hkw h
      cases kw with
      | nil =>
          rw [List.nil_append, List.nil_append] at h
          injection h with h1 h2
          exact ⟨rfl, h2⟩
      | cons k kw' =>
          rw [List.nil_append, List.cons_append] at h
          injection h with h1 h2
          exact absurd (hkw k (by simp)) (by rw [← h1]; decide)
  | cons c t' ih =>
      intro kw X Y ht hkw h
      cases kw with
      | nil =>
          rw [List.nil_append, List.cons_append] at h
          injection h with h1 h2
          exact absurd (ht c (by simp)) (by rw [h1]; decide)
      | cons k kw' =>
          rw [List.cons_append, List.cons_append] at h
          injection h with h1 h2
          obtain ⟨he, hXY⟩ := ih kw' X Y (fun x hx => ht x (by simp [hx]))
            (fun x hx => hkw x (by simp [hx])) h2
          exact ⟨by rw [h1, he], hXY⟩

theorem headTok {kw : List Char} (hkw : ∀ c ∈ kw, isSpaceChar c = false) :
    ∀ (ts : List (List Char)) (b : List Char),
    (∀ t ∈ ts, ∀ c ∈ t, isSpaceChar c = false) →
    catTok ts = kw ++ ' ' :: b → kw ∈ ts := by
  intro ts b hts h
  cases ts with
  | nil => exact absurd h (by simp [catTok])
  | cons t ts' =>
      rw [catTok] at h
      obtain ⟨he, -⟩ := firstSep t kw (catTok ts') b
        (hts t (by simp)) hkw h
      rw [← he]
      simp

theorem innerTok {kw : List Char} (hkw : ∀ c ∈ kw, isSpaceChar c = false) :
    ∀ (ts : List (List Char)),
    (∀ t ∈ ts, ∀ c ∈ t, isSpaceChar c = false) →
    ∀ (a b : List Char),
    catTok ts = a ++ ' ' :: (kw ++ ' ' :: b) → kw ∈ ts := by
  intro ts
  induction ts with
  | nil => intro _ a b h; exact absurd h (by simp [catTok])
  | cons t ts' ih =>
      intro hts a b h
      rw [catTok] at h
      rcases List.append_eq_append_iff.mp h with ⟨w, hw1, hw2⟩ | ⟨w, hw1, hw2⟩
      · cases w with
        | nil =>
            rw [List.nil_append] at hw2
            injection hw2 with h1 h2
            exact List.mem_cons_of_mem t
              (headTok hkw ts' b (fun u hu => hts u (by simp [hu])) h2)
        | cons y w' =>
            rw [List.cons_append] at hw2
            injection hw2 with h1 h2
            exact List.mem_cons_of_mem t
              (ih (fun u hu => hts u (by simp [hu])) w' b h2)
      · cases w with
        | nil =>
            rw [List.append_nil] at hw1
            injection hw2 with h1 h2
            exact List.mem_cons_of_mem t
              (headTok hkw ts' b (fun u hu => hts u (by simp [hu])) h2.symm)
        | cons y w' =>
            injection hw2 with h1 h2
            have hy : y ∈ t := by rw [hw1]; simp
            exact absurd (hts t (by simp) y hy) (by rw [← h1]; decide)

theorem memDecomp {kw : List Char} : ∀ (ts : List (List Char)), kw ∈ ts →
    ∃ a b, ' ' :: catTok ts = a ++ (' ' :: (kw ++ [' '])) ++ b := by
  intro ts
  induction ts with
  | nil => intro h; exact absurd h (by simp)
  | cons t ts' ih =>
      intro h
      rcases List.mem_cons.mp h with rfl | h'
      · exact ⟨[], catTok ts', by simp [catTok, List.append_assoc]⟩
      · obtain ⟨a, b, hab⟩ := ih h'
        refine ⟨(' ' :: t) ++ a, b, ?_⟩
        rw [catTok]
        rw [show (' ' :: (t ++ ' ' :: catTok ts') : List Char) =
          (' ' :: t) ++ (' ' :: catTok ts') from by simp]
        rw [hab]
        simp [List.append_assoc]

theorem containsSub_tok_iff {kw : List Char} (hne : kw ≠ [])
    (hkw : ∀ c ∈ kw, isSpaceChar c = false) (ts : List (List Char))
    (hts : ∀ t ∈ ts, ∀ c ∈ t, isSpaceChar c = false) :
    containsSub (' ' :: (kw ++ [' '])) (' ' :: (joinSpace ts ++ [' '])) = true ↔
      kw ∈ ts := by
  cases hts0 : ts with
  | nil =>
      simp only [joinSpace, List.nil_append, List.not_mem_nil, iff_false]
      intro hcs
      rw [containsSub_iff] at hcs
      obtain ⟨a, b, hab⟩ := hcs
      have hlen := congrArg List.length hab
      simp only [List.length_cons, List.length_append, List.length_singleton] at hlen
      have : kw.length = 0 := by omega
      exact hne (List.eq_nil_of_length_eq_zero this)
  | cons t0 ts0 =>
      rw [← hts0, joinSpace_catTok ts (by simp [hts0]), containsSub_iff]
      constructor
      · rintro ⟨a, b, hab⟩
        cases a with
        | nil =>
            rw [List.nil_append, List.cons_append] at hab
            injection hab with h1 h2
            have h2' : catTok ts = kw ++ ' ' :: b := by
              rw [h2]
              simp
            exact headTok hkw ts b hts h2'
        | cons x a' =>
            rw [List.cons_append, List.cons_append] at hab
            injection hab with h1 h2
            have h2' : catTok ts = a' ++ ' ' :: (kw ++ ' ' :: b) := by
              rw [h2]
              simp
            exact innerTok hkw ts hts a' b h2'
      · intro hmem
        exact memDecomp ts hmem

theorem sw_append {p s : List Char} (h : startsWithCL p s = true)
    (u : List Char) : startsWithCL p (s ++ u) = true := by
  obtain ⟨t, rfl⟩ := (startsWithCL_iff p s).mp h
  exact (startsWithCL_iff _ _).mpr ⟨t ++ u, by rw [List.append_assoc]⟩

theorem sw_sep {p : List Char} (hp : ∀ c ∈ p, isSpaceChar c = false) :
    ∀ (t j : List Char), startsWithCL p (t ++ ' ' :: j) = startsWithCL p t := by
  induction p with
  | nil => intro t j; rfl
  | cons c p' ih =>
      intro t j
      cases t with
      | nil =>
          rw [List.nil_append]
          show (decide (c = ' ') && startsWithCL p' j) = startsWithCL (c :: p') []
          rw [decide_eq_false (nospace_ne_blank (hp c (by simp)))]
          rfl
      | cons x t' =>
          rw [List.cons_append]
          show (decide (c = x) && startsWithCL p' (t' ++ ' ' :: j)) =
            (decide (c = x) && startsWithCL p' t')
          rw [ih (fun y hy => hp y (by simp [hy])) t' j]

theorem sw_join_head {p : List Char} (hp : ∀ c ∈ p, isSpaceChar c = false)
    (t : List Char) (ts : List (List Char)) :
    startsWithCL p (joinSpace (t :: ts)) = startsWithCL p t := by
  cases ts with
  | nil => rfl
  | cons a b =>
      rw [joinSpace_cons (by simp)]
      exact sw_sep hp t (joinSpace (a :: b))

theorem map_upper_joinSpace : ∀ (ts : List (List Char)),
    (joinSpace ts).map toUpperChar =
      joinSpace (ts.map (List.map toUpperChar)) := by
  intro ts
  induction ts with
  | nil => rfl
  | cons t ts ih =>
      cases hts : ts with
      | nil => rfl
      | cons a b =>
          rw [← hts, joinSpace_cons (by simp [hts]), List.map_append,
            List.map_cons, ih, show toUpperChar ' ' = ' ' from by decide,
            List.map_cons,
            @joinSpace_cons (List.map toUpperChar t)
              (List.map (List.map toUpperChar) ts) (by simp [hts])]

theorem dangerous_facts : ∀ kw ∈ dangerousKeywords,
    kw ≠ [] ∧ (∀ c ∈ kw, isSpaceChar c = false) ∧
    65 ≤ (kw.headD ' ').toNat ∧ (kw.headD ' ').toNat ≤ 90 ∧
    kw.getLastD '0' ≠ ';' ∧ kw ≠ "LIMIT".data := by decide

/-- `is_safe_select_sql` in terms of the whitespace tokens of the
input: the stripped text must be non-empty, the upper-cased first token
must start with `SELECT`, and no upper-cased token may equal a
denylisted keyword. -/
theorem is_safe_toks (sql : List Char) :
    is_safe_select_sql sql = true ↔
      pyStrip sql ≠ [] ∧
      (∃ hd tl, pySplit sql = hd :: tl ∧
        startsWithCL "SELECT".data (hd.map toUpperChar) = true) ∧
      ∀ kw ∈ dangerousKeywords,
        ¬ kw ∈ (pySplit sql).map (List.map toUpperChar) := by
  have hnorm : normalizeSQL sql =
      joinSpace ((pySplit sql).map (List.map toUpperChar)) := by
    rw [normalizeSQL, pySplit_pyStrip, map_upper_joinSpace]
  have htoksafe : ∀ t ∈ (pySplit sql).map (List.map toUpperChar),
      ∀ c ∈ t, isSpaceChar c = false := by
    intro t ht c hc
    rw [List.mem_map] at ht
    obtain ⟨u, hu, rfl⟩ := ht
    rw [List.mem_map] at hc
    obtain ⟨x, hx, rfl⟩ := hc
    rw [isSpaceChar_toUpperChar]
    exact pySplit_no_space hu x hx
  have hsel : startsWithCL "SELECT".data (normalizeSQL sql) = true ↔
      ∃ hd tl, pySplit sql = hd :: tl ∧
        startsWithCL "SELECT".data (hd.map toUpperChar) = true := by
    rw [hnorm]
    cases hps : pySplit sql with
    | nil =>
        simp only [List.map_nil]
        constructor
        · intro h
          exact absurd h (by decide)
        · rintro ⟨hd, tl, h, -⟩
          exact absurd h (by simp)
    | cons hd tl =>
        rw [List.map_cons,
          sw_join_head (by decide) (hd.map toUpperChar) (tl.map (List.map toUpperChar))]
        constructor
        · intro h
          exact ⟨hd, tl, rfl, h⟩
        · rintro ⟨hd', tl', he, h⟩
          injection he with he1 he2
          rw [he1]
          exact h
  have hkw : ∀ kw, kw ∈ dangerousKeywords →
      ((!containsSub (' ' :: (kw ++ [' ']))
          (' ' :: (normalizeSQL sql ++ [' ']))) = true ↔
        ¬ kw ∈ (pySplit sql).map (List.map toUpperChar)) := by
    intro kw hkwmem
    obtain ⟨hne, hnos, -⟩ := dangerous_facts kw hkwmem
    rw [Bool.not_eq_true', ← Bool.not_eq_true, hnorm]
    rw [containsSub_tok_iff hne hnos _ htoksafe]
  rw [is_safe_select_sql]
  split_ifs with h1 h2
  · simp [h1]
  · rw [Bool.not_eq_true'] at h2
    simp only [Bool.false_eq_true, false_iff, not_and]
    intro _ hcontra
    rw [← hsel] at hcontra
    rw [h2] at hcontra
    exact absurd hcontra (by simp)
  · rw [Bool.not_eq_true', Bool.not_eq_false] at h2
    rw [List.all_eq_true]
    constructor
    · intro hall
      refine ⟨h1, hsel.mp h2, ?_⟩
      intro kw hkwmem
      exact (hkw kw hkwmem).mp (hall kw hkwmem)
    · rintro ⟨-, -, hno⟩ kw hkwmem
      exact (hkw kw hkwmem).mpr (hno kw hkwmem)

/-- Relation between an upper-cased input token and the corresponding
output token of the `re.sub` rewrite: either unchanged (the rewrite of
the `LIMIT` literal only changes letter case), or its leading digit
run has been replaced by the replacement digits `dU`. -/
def TR (dU u u' : List Char) : Prop :=
  u' = u ∨ ∃ ds r, u = ds ++ r ∧ u' = dU ++ r ∧ ds ≠ [] ∧
    ∀ c ∈ ds, isDigitChar c = true

/-- `TR` on the upper-cased images of two raw tokens. -/
def TRtok (dU t t' : List Char) : Prop :=
  TR dU (t.map toUpperChar) (t'.map toUpperChar)

theorem TR_append {dU u u' : List Char} (h : TR dU u u') (w : List Char) :
    TR dU (u ++ w) (u' ++ w) := by
  rcases h with rfl | ⟨ds, r, h1, h2, h3, h4⟩
  · exact Or.inl rfl
  · exact Or.inr ⟨ds, r ++ w, by rw [h1, List.append_assoc],
      by rw [h2, List.append_assoc], h3, h4⟩

theorem TR_acc_nil_sync {dU : List Char} (hdU : dU ≠ []) {acc acc' : List Char}
    (h : TR dU (acc.reverse.map toUpperChar) (acc'.reverse.map toUpperChar)) :
    acc = [] ↔ acc' = [] := by
  constructor
  · rintro rfl
    cases acc' with
    | nil => rfl
    | cons b bs =>
        exfalso
        rcases h with h | ⟨ds, r, h1, h2, h3, h4⟩
        · simp at h
        · rw [List.reverse_nil, List.map_nil] at h1
          rcases List.append_eq_nil.mp h1.symm with ⟨hds, -⟩
          exact h3 hds
  · rintro rfl
    cases acc with
    | nil => rfl
    | cons a as =>
        exfalso
        rcases h with h | ⟨ds, r, h1, h2, h3, h4⟩
        · simp at h
        · rw [List.reverse_nil, List.map_nil] at h2
          rcases List.append_eq_nil.mp h2.symm with ⟨hdU2, -⟩
          exact hdU hdU2

theorem flush_rel {dU : List Char} (hdU : dU ≠ []) {acc acc' : List Char}
    (h : TR dU (acc.reverse.map toUpperChar) (acc'.reverse.map toUpperChar)) :
    List.Forall₂ (TRtok dU) (pySplitAux [] acc) (pySplitAux [] acc') := by
  cases acc with
  | nil =>
      have h0 : acc' = [] := (TR_acc_nil_sync hdU h).mp rfl
      subst h0
      exact List.Forall₂.nil
  | cons a as =>
      cases acc' with
      | nil => exact absurd ((TR_acc_nil_sync hdU h).mpr rfl) (by simp)
      | cons b bs =>
          simp only [pySplitAux]
          rw [if_neg (by simp), if_neg (by simp)]
          exact List.Forall₂.cons h List.Forall₂.nil

theorem pySplitAux_space_flush {ws : List Char} (hne : ws ≠ [])
    (hall : ∀ c ∈ ws, isSpaceChar c = true) :
    ∀ (rest acc : List Char),
      pySplitAux (ws ++ rest) acc =
        (if acc.isEmpty then [] else [acc.reverse]) ++ pySplitAux rest [] := by
  cases ws with
  | nil => exact absurd rfl hne
  | cons w ws' =>
      intro rest acc
      have hw : isSpaceChar w = true := hall w (by simp)
      rw [List.cons_append]
      simp only [pySplitAux, hw, if_pos]
      rw [pySplitAux_allspace_pre ws' (fun c hc => hall c (by simp [hc])) rest]
      cases acc with
      | nil => simp
      | cons a as => simp

theorem pySplitAux_limitSub_rel {d : List Char} (hdne : d ≠ [])
    (hdns : ∀ c ∈ d, isSpaceChar c = false) :
    ∀ (N : Nat) (B : List Char), B.length ≤ N →
    ∀ (prev : Option Char) (acc acc' : List Char),
    TR (d.map toUpperChar) (acc.reverse.map toUpperChar)
      (acc'.reverse.map toUpperChar) →
    List.Forall₂ (TRtok (d.map toUpperChar))
      (pySplitAux B acc) (pySplitAux (limitSub d prev B) acc') := by
  have hdU : d.map toUpperChar ≠ [] := by
    cases d with
    | nil => exact absurd rfl hdne
    | cons x xs => simp
  have hLns : ∀ u ∈ ("LIMIT".data : List Char), isSpaceChar u = false := by decide
  intro N
  induction N with
  | zero =>
      intro B hB prev acc acc' h
      have hB0 : B = [] := List.eq_nil_of_length_eq_zero (by omega)
      subst hB0
      rw [limitSub_nil]
      exact flush_rel hdU h
  | succ N ih =>
      intro B hB prev acc acc' h
      cases B with
      | nil =>
          rw [limitSub_nil]
          exact flush_rel hdU h
      | cons c rest =>
          have hrest : rest.length ≤ N := by
            simp only [List.length_cons] at hB
            omega
          cases hm : limitMatchHere prev (c :: rest) with
          | none =>
              rw [limitSub_cons_none hm]
              by_cases hc : isSpaceChar c = true
              · simp only [pySplitAux, hc, if_pos]
                have hsync := TR_acc_nil_sync hdU h
                cases acc with
                | nil =>
                    have h0 : acc' = [] := hsync.mp rfl
                    subst h0
                    simp only [List.isEmpty_nil, if_true]
                    exact ih rest hrest (some c) [] [] (Or.inl rfl)
                | cons a as =>
                    cases acc' with
                    | nil => exact absurd (hsync.mpr rfl) (by simp)
                    | cons b bs =>
                        simp only [List.isEmpty_cons, Bool.false_eq_true,
                          if_false]
                        exact List.Forall₂.cons h
                          (ih rest hrest (some c) [] [] (Or.inl rfl))
              · simp only [pySplitAux, hc, Bool.false_eq_true, if_false]
                refine ih rest hrest (some c) (c :: acc) (c :: acc') ?_
                rw [List.reverse_cons, List.reverse_cons, List.map_append,
                  List.map_append]
                exact TR_append h _
          | some r0 =>
              obtain ⟨v, after, lc⟩ := r0
              rw [limitSub_cons_some hm]
              obtain ⟨hb, lit, ws, ds, hsplit, hlit, hwsne, hwsall, hdsne,
                hdsall, hv, hlc, hba⟩ := limitMatchHere_anatomy hm
              have hmlen := limitMatchHere_length hm
              have hafter : after.length ≤ N := by
                simp only [List.length_cons] at hmlen
                omega
              have hlitne : lit ≠ [] := by
                intro h0
                rw [h0] at hlit
                exact absurd hlit (by decide)
              have hlitns : ∀ x ∈ lit, isSpaceChar x = false := by
                intro x hx
                have hux : toUpperChar x ∈ ("LIMIT".data : List Char) := by
                  rw [← hlit]
                  exact List.mem_map_of_mem toUpperChar hx
                rw [← isSpaceChar_toUpperChar]
                exact hLns _ hux
              have hwsall' : ∀ x ∈ ws, isSpaceChar x = true :=
                List.all_eq_true.mp hwsall
              have hdsall' : ∀ x ∈ ds, isDigitChar x = true :=
                List.all_eq_true.mp hdsall
              have hdsns : ∀ x ∈ ds, isSpaceChar x = false := fun x hx =>
                digit_not_space (hdsall' x hx)
              have hsplit2 : c :: rest = lit ++ (ws ++ (ds ++ after)) := by
                rw [hsplit]
                simp [List.append_assoc]
              have hout : ("LIMIT ".data ++ d) ++ limitSub d (some lc) after =
                  "LIMIT".data ++
                    ([' '] ++ (d ++ limitSub d (some lc) after)) := by
                rw [show ("LIMIT ".data : List Char) = "LIMIT".data ++ [' ']
                  from by decide]
                simp [List.append_assoc]
              rw [hsplit2, pySplitAux_push hlitns (ws ++ (ds ++ after)) acc,
                pySplitAux_space_flush hwsne hwsall' (ds ++ after)
                  (lit.reverse ++ acc),
                pySplitAux_push hdsns after [],
                if_neg (by simp [hlitne]),
                hout, pySplitAux_push hLns ([' '] ++ (d ++ limitSub d (some lc) after)) acc',
                pySplitAux_space_flush (by simp) (by decide)
                  (d ++ limitSub d (some lc) after)
                  (("LIMIT".data : List Char).reverse ++ acc'),
                pySplitAux_push hdns (limitSub d (some lc) after) [],
                if_neg (by simp)]
              simp only [List.append_nil, List.singleton_append,
                List.reverse_append, List.reverse_reverse]
              refine List.Forall₂.cons ?_ ?_
              · show TR (d.map toUpperChar)
                  ((acc.reverse ++ lit).map toUpperChar)
                  ((acc'.reverse ++ "LIMIT".data).map toUpperChar)
                rw [List.map_append, List.map_append, hlit,
                  show ("LIMIT".data : List Char).map toUpperChar = "LIMIT".data
                    from by decide]
                exact TR_append h _
              · refine ih after hafter (some lc) ds.reverse d.reverse ?_
                rw [List.reverse_reverse, List.reverse_reverse]
                right
                refine ⟨ds.map toUpperChar, [], by simp, by simp, ?_, ?_⟩
                · simp [hdsne]
                · intro x hx
                  rw [List.mem_map] at hx
                  obtain ⟨y, hy, rfl⟩ := hx
                  rw [isDigitChar_toUpperChar]
                  exact hdsall' y hy

theorem pySplit_limitSub_rel {d : List Char} (hdne : d ≠ [])
    (hdns : ∀ c ∈ d, isSpaceChar c = false) (B : List Char) :
    List.Forall₂ (TRtok (d.map toUpperChar))
      (pySplit B) (pySplit (limitSub d none B)) :=
  pySplitAux_limitSub_rel hdne hdns B.length B (le_refl _) none [] []
    (Or.inl rfl)

theorem rel_token_cases {dU : List Char} {ts ts' : List (List Char)}
    (h : List.Forall₂ (TRtok dU) ts ts') :
    ∀ t' ∈ ts', (∃ t ∈ ts, t'.map toUpperChar = t.map toUpperChar) ∨
      ∃ r, t'.map toUpperChar = dU ++ r := by
  induction h with
  | nil => intro t' ht'; exact absurd ht' (by simp)
  | @cons a b l1 l2 h1 h2 ih =>
      intro t' ht'
      rcases List.mem_cons.mp ht' with rfl | ht''
      · rcases h1 with he | ⟨ds, r, hu1, hu2, hds, hdig⟩
        · exact Or.inl ⟨a, by simp, he⟩
        · exact Or.inr ⟨r, hu2⟩
      · rcases ih t' ht'' with ⟨t, htm, he⟩ | hr
        · exact Or.inl ⟨t, by simp [htm], he⟩
        · exact Or.inr hr

theorem rel_head {dU hd : List Char} {tl ts' : List (List Char)}
    (h : List.Forall₂ (TRtok dU) (hd :: tl) ts') :
    ∃ hd' tl', ts' = hd' :: tl' ∧
      TR dU (hd.map toUpperChar) (hd'.map toUpperChar) := by
  cases h with
  | cons h1 h2 => exact ⟨_, _, rfl, h1⟩

theorem natToDigits_mem_digit {n : Nat} {x : Char} (hx : x ∈ natToDigits n) :
    isDigitChar x = true := by
  have := (natToDigits_digits n).1
  rw [List.all_eq_true] at this
  exact this x hx

theorem intToChars_ne_nil (m : Int) : intToChars m ≠ [] := by
  rw [intToChars]
  split
  · simp
  · exact (natToDigits_digits _).2

theorem intToChars_nospace (m : Int) :
    ∀ c ∈ intToChars m, isSpaceChar c = false := by
  intro c hc
  rw [intToChars] at hc
  split at hc
  · rcases List.mem_cons.mp hc with rfl | hx
    · decide
    · exact digit_not_space (natToDigits_mem_digit hx)
  · exact digit_not_space (natToDigits_mem_digit hc)

theorem intToChars_upper_head (m : Int) :
    ∃ c r, (intToChars m).map toUpperChar = c :: r ∧ c.toNat < 65 := by
  have hup : ∀ c : Char, c.toNat < 65 → (toUpperChar c).toNat < 65 := by
    intro c h
    rw [toUpperChar_toNat]
    split <;> omega
  rw [intToChars]
  split
  · exact ⟨toUpperChar '-', (natToDigits (-m).toNat).map toUpperChar,
      by simp, hup _ (by decide)⟩
  · obtain ⟨hall, hne⟩ := natToDigits_digits m.toNat
    cases hnd : natToDigits m.toNat with
    | nil => exact absurd hnd hne
    | cons c0 r0 =>
        refine ⟨toUpperChar c0, r0.map toUpperChar, by simp, ?_⟩
        apply hup
        have hd0 : isDigitChar c0 = true :=
          natToDigits_mem_digit (by rw [hnd]; simp)
        simp only [isDigitChar, Bool.and_eq_true, decide_eq_true_eq] at hd0
        omega

theorem intToChars_last_digit (m : Int) :
    ∃ c, (intToChars m).getLast? = some c ∧ isDigitChar c = true := by
  rw [intToChars]
  split
  · obtain ⟨hall, hne⟩ := natToDigits_digits (-m).toNat
    refine ⟨(natToDigits (-m).toNat).getLastD '0', ?_, all_getLastD hne hall⟩
    rw [getLast?_cons_ne hne, getLast?_eq_getLastD hne]
  · obtain ⟨hall, hne⟩ := natToDigits_digits m.toNat
    exact ⟨(natToDigits m.toNat).getLastD '0', getLast?_eq_getLastD hne,
      all_getLastD hne hall⟩

theorem kw_ne_dU_append {kw : List Char} (hkw : kw ∈ dangerousKeywords)
    (m : Int) (r : List Char) :
    kw ≠ ((intToChars m).map toUpperChar) ++ r := by
  obtain ⟨hne, -, hh1, hh2, -, -⟩ := dangerous_facts kw hkw
  obtain ⟨c0, r0, hmap, hc0⟩ := intToChars_upper_head m
  intro he
  rw [hmap] at he
  rw [he] at hh1
  simp only [List.cons_append, List.headD_cons] at hh1
  omega

theorem kw_ne_snoc_semi {kw : List Char} (hkw : kw ∈ dangerousKeywords)
    (u : List Char) : kw ≠ u ++ [';'] := by
  obtain ⟨hne, -, -, -, hsemi, -⟩ := dangerous_facts kw hkw
  intro he
  have hlast : kw.getLast? = some ';' := by
    rw [he, getLast?_append_right (by simp)]
    rfl
  rw [getLast?_eq_getLastD hne] at hlast
  injection hlast with h0
  exact hsemi h0

theorem pyStrip_ne_nil_of_mem {l : List Char} {x : Char} (hx : x ∈ l)
    (hxs : isSpaceChar x = false) : pyStrip l ≠ [] := by
  intro h0
  obtain ⟨w, hw, hall⟩ := pyStrip_decomp l
  rw [h0, List.nil_append] at hw
  have hsplit : l.takeWhile isSpaceChar ++ l.dropWhile isSpaceChar = l := by
    rw [List.takeWhile_append_dropWhile]
  rw [← hsplit] at hx
  rcases List.mem_append.mp hx with hx1 | hx2
  · have hta := all_takeWhile isSpaceChar l
    rw [List.all_eq_true] at hta
    rw [hta x hx1] at hxs
    exact absurd hxs (by simp)
  · rw [hw] at hx2
    rw [hall x hx2] at hxs
    exact absurd hxs (by simp)

theorem limitSub_getLast_or {d : List Char} (hdne : d ≠ []) :
    ∀ (N : Nat) (s : List Char), s.length ≤ N → ∀ (q : Option Char), s ≠ [] →
      (limitSub d q s).getLast? = s.getLast? ∨
      (limitSub d q s).getLast? = d.getLast? := by
  intro N
  induction N with
  | zero =>
      intro s hs q hne
      exact absurd (List.eq_nil_of_length_eq_zero (by omega)) hne
  | succ N ih =>
      intro s hs q hne
      cases s with
      | nil => exact absurd rfl hne
      | cons c rest =>
          cases hm : limitMatchHere q (c :: rest) with
          | none =>
              rw [limitSub_cons_none hm]
              by_cases hrest : rest = []
              · subst hrest
                left
                rfl
              · have hsubne : limitSub d (some c) rest ≠ [] :=
                  limitSub_ne_nil hrest
                rw [getLast?_cons_ne hsubne, getLast?_cons_ne hrest]
                exact ih rest (by simp at hs; omega) (some c) hrest
          | some r =>
              obtain ⟨v, after, lc⟩ := r
              rw [limitSub_cons_some hm]
              obtain ⟨-, lit, ws, ds, hsplit, -, -, -, -, -, -, -, -⟩ :=
                limitMatchHere_anatomy hm
              by_cases hafter : after = []
              · right
                subst hafter
                rw [show limitSub d (some lc) [] = [] from rfl,
                  List.append_nil, getLast?_append_right hdne]
              · have hsubne : limitSub d (some lc) after ≠ [] :=
                  limitSub_ne_nil hafter
                rw [getLast?_append_right hsubne]
                have hslast : (c :: rest).getLast? = after.getLast? := by
                  rw [hsplit, getLast?_append_right hafter]
                rw [hslast]
                have hlen := limitMatchHere_length hm
                exact ih after (by simp at hlen hs ⊢; omega) (some lc) hafter

/-- Appending the final semicolon to a body whose tokens are known:
the result is safe when the first token keeps its `SELECT` prefix and
no token's upper-case image is a denylisted keyword (the last token
absorbs the `';'` and therefore can never be one). -/
theorem safe_out_of_toks {X hd : List Char} {tl : List (List Char)}
    (hX : pySplit X = hd :: tl)
    (hXlast : ∀ e, X.getLast? = some e → isSpaceChar e = false)
    (hhd : startsWithCL "SELECT".data (hd.map toUpperChar) = true)
    (hkwall : ∀ kw ∈ dangerousKeywords, ∀ t ∈ hd :: tl,
      kw ≠ t.map toUpperChar) :
    is_safe_select_sql (X ++ [';']) = true := by
  rw [is_safe_toks]
  have hsnoc := pySplit_snoc (show isSpaceChar ';' = false from by decide) hXlast
  rw [hX] at hsnoc
  refine ⟨?_, ?_, ?_⟩
  · exact pyStrip_ne_nil_of_mem
      (show (';') ∈ X ++ [';'] from List.mem_append.mpr (Or.inr (by simp)))
      (by decide)
  · cases tl with
    | nil =>
        refine ⟨hd ++ [';'], [], by rw [hsnoc]; rfl, ?_⟩
        rw [List.map_append]
        exact sw_append hhd _
    | cons t0 ts0 =>
        exact ⟨hd, (t0 :: ts0).dropLast ++ [(t0 :: ts0).getLastD [] ++ [';']],
          by rw [hsnoc]; rfl, hhd⟩
  · intro kw hkw hmem
    rw [hsnoc, List.map_append] at hmem
    rcases List.mem_append.mp hmem with h1 | h2
    · rw [List.mem_map] at h1
      obtain ⟨t, ht, hte⟩ := h1
      exact hkwall kw hkw t (List.dropLast_subset _ ht) hte.symm
    · simp only [List.map_cons, List.map_nil, List.mem_singleton] at h2
      rw [List.map_append,
        show (([';'] : List Char)).map toUpperChar = [';'] from by decide] at h2
      exact kw_ne_snoc_semi hkw _ h2

/-- C10, counterexample to the claim as stated.  `SELECT DROP;` is
accepted by `is_safe_select_sql` (the keyword is followed by `';'`,
not a space), but `enforce_limit` drops the trailing semicolon and
appends ` LIMIT 1000;`, leaving `DROP` space-delimited, so the output
is rejected. -/
theorem c10_counterexample :
    is_safe_select_sql "SELECT DROP;".data = true ∧
    is_safe_select_sql (enforce_limit "SELECT DROP;".data 1000) = false := by
  decide

/-- C10 (amended): `enforce_limit` preserves `is_safe_select_sql` for
every bound, provided the stripped input does not end in a semicolon
(when it does, removing the `';'` can expose a trailing denylisted
keyword to the space-delimited check, as the counterexample shows).
All three rewriting shapes are covered: appending ` LIMIT <m>`,
leaving the body unchanged, and the global `re.sub` rewrite of every
`LIMIT <n>` clause. -/
theorem c10_enforce_limit_preserves_safety (sql : List Char) (m : Int)
    (hsafe : is_safe_select_sql sql = true)
    (hsemi : (pyStrip sql).getLast? ≠ some ';') :
    is_safe_select_sql (enforce_limit sql m) = true := by
  obtain ⟨hstrip, ⟨hd, tl, hps, hsel⟩, hnokw⟩ := (is_safe_toks sql).mp hsafe
  have hB : enfBody sql = pyStrip sql := by rw [enfBody, if_neg hsemi]
  have hpsB : pySplit (pyStrip sql) = hd :: tl := by
    rw [pySplit_pyStrip]
    exact hps
  have hBlast : ∀ e, (pyStrip sql).getLast? = some e → isSpaceChar e = false :=
    fun e he => pyStrip_last_not_space he
  have hkwbase : ∀ kw ∈ dangerousKeywords, ∀ t ∈ hd :: tl,
      kw ≠ t.map toUpperChar := by
    intro kw hkw t ht he
    apply hnokw kw hkw
    rw [hps, he]
    exact List.mem_map_of_mem _ ht
  obtain ⟨hc1, hc2, hc3⟩ := enforce_limit_cases sql m
  cases hs : limitScan none (enfBody sql) with
  | nil =>
      have hout := hc1 hs
      rw [hout, hB]
      have hshape : ((" LIMIT ".data ++ intToChars m) : List Char) =
          ' ' :: ("LIMIT".data ++ (' ' :: intToChars m)) := rfl
      have hx1 : pySplit (pyStrip sql ++ (" LIMIT ".data ++ intToChars m)) =
          hd :: (tl ++ ("LIMIT".data :: [intToChars m])) := by
        rw [hshape, pySplit_sep, pySplit_sep, hpsB,
          @pySplit_nospace_single "LIMIT".data (by decide) (by decide),
          @pySplit_nospace_single (intToChars m) (intToChars_ne_nil m)
            (intToChars_nospace m)]
        rfl
      have hXlast : ∀ e,
          (pyStrip sql ++ (" LIMIT ".data ++ intToChars m)).getLast? = some e →
          isSpaceChar e = false := by
        intro e he
        obtain ⟨c0, hc0l, hc0d⟩ := intToChars_last_digit m
        rw [getLast?_append_right (by rw [hshape]; simp), hshape,
          getLast?_cons_ne (by simp),
          getLast?_append_right (by simp),
          getLast?_cons_ne (intToChars_ne_nil m), hc0l] at he
        injection he with he0
        rw [← he0]
        exact digit_not_space hc0d
      refine safe_out_of_toks hx1 hXlast hsel ?_
      intro kw hkw t ht he
      rcases List.mem_cons.mp ht with rfl | ht'
      · exact hkwbase kw hkw t (by simp) he
      · rcases List.mem_append.mp ht' with ht1 | ht2
        · exact hkwbase kw hkw t (by simp [ht1]) he
        · rcases List.mem_cons.mp ht2 with rfl | ht3
          · obtain ⟨-, -, -, -, -, hlim⟩ := dangerous_facts kw hkw
            rw [show (("LIMIT".data : List Char)).map toUpperChar =
              "LIMIT".data from by decide] at he
            exact hlim he
          · rcases List.mem_singleton.mp ht3 with rfl
            exact kw_ne_dU_append hkw m []
              (by rw [List.append_nil]; exact he)
  | cons v vs =>
      by_cases hv : (v : Int) > m
      · have hout := (hc3 v vs hs hv).1
        rw [hout, hB]
        have hrel := pySplit_limitSub_rel (intToChars_ne_nil m)
          (intToChars_nospace m) (pyStrip sql)
        rw [hpsB] at hrel
        obtain ⟨hd', tl', hps', htr⟩ := rel_head hrel
        have hXlast : ∀ e,
            (limitSub (intToChars m) none (pyStrip sql)).getLast? = some e →
            isSpaceChar e = false := by
          intro e he
          rcases limitSub_getLast_or (intToChars_ne_nil m)
            (pyStrip sql).length (pyStrip sql) (le_refl _) none hstrip
            with h0 | h0
          · rw [h0] at he
            exact hBlast e he
          · rw [h0] at he
            obtain ⟨c0, hc0l, hc0d⟩ := intToChars_last_digit m
            rw [hc0l] at he
            injection he with he0
            rw [← he0]
            exact digit_not_space hc0d
        refine safe_out_of_toks hps' hXlast ?_ ?_
        · rcases htr with he | ⟨ds, r, hu1, hu2, hdsne, hdig⟩
          · rw [he]
            exact hsel
          · exfalso
            obtain ⟨t, ht⟩ := (startsWithCL_iff _ _).mp hsel
            rw [show ("SELECT".data : List Char) ++ t =
              'S' :: ("ELECT".data ++ t) from rfl] at ht
            rw [ht] at hu1
            cases ds with
            | nil => exact hdsne rfl
            | cons s0 ds' =>
                rw [List.cons_append] at hu1
                injection hu1 with h1 h2
                have hs0 := hdig s0 (by simp)
                rw [← h1] at hs0
                exact absurd hs0 (by decide)
        · intro kw hkw t ht he
          rcases rel_token_cases hrel t (by rw [hps']; exact ht)
            with ⟨t0, ht0, hte⟩ | ⟨r, hr⟩
          · rw [hte] at he
            exact hkwbase kw hkw t0 ht0 he
          · rw [hr] at he
            exact kw_ne_dU_append hkw m r he
      · have hout := hc2 v vs hs (by omega)
        rw [hout, hB]
        exact safe_out_of_toks hpsB hBlast hsel hkwbase

/-- Witness for C10 at a concrete safe query not ending in `';'`. -/
theorem c10_enforce_limit_preserves_safety_witness :
    is_safe_select_sql "SELECT * FROM sales".data = true ∧
    (pyStrip "SELECT * FROM sales".data).getLast? ≠ some ';' ∧
    is_safe_select_sql (enforce_limit "SELECT * FROM sales".data 100) = true :=
  ⟨by decide, by decide,
   c10_enforce_limit_preserves_safety _ 100 (by decide) (by decide)⟩
